import Mathlib

/-!
Shallow embedding of the MOHO multi-objective optimizer (src/MOHO/MOHO.py).

Modelling conventions:
* numpy float arrays are modelled as `List ℚ` / `List (List ℚ)`; float
  arithmetic is idealised as exact rational arithmetic (so the float literal
  `1e-6` is the rational `1/1000000`, and `0.05` is `1/20`).
* `np.inf`, which appears only in the crowding distances, is modelled by `⊤`
  of `WithTop ℚ`; `⊤ + x = ⊤` matches `inf + x = inf` under `+=`.
* `np.random` is a global seeded stream; a run is a pure function of the
  seed.  We model the stream as an explicit `Tape` of draws indexed by
  (phase, generation, individual, draw number); a fixed seed corresponds to a
  fixed tape.  Draws whose construction involves transcendental functions are
  modelled as abstract tape draws: the Levy-flight vector `levy(1, dim, 1.5)`
  (Gamma function, normal samples, fractional powers) is the draw
  `Tape.levyv`, and `math.cos(l)` for the uniform angle `l` of the defense
  phase is the draw `Tape.cosl`.  The branch test `exp(-t/max_gen) > 0.6` of
  the exploration phase is deterministic but transcendental; it is modelled
  by an oracle parameter `texp : ℕ → ℕ → Bool`.
* The objective evaluator `evaluate_objectives` is explicitly out of the
  specified core (spec §1 treats it as a pluggable external collaborator, and
  its reference implementation uses `np.std`, a square root); the embedding
  takes the evaluator as a function parameter `f : List ℚ → List ℚ`.
* CRUCIAL aliasing fact of the source: `Q = P.copy()` (line 171) is a
  shallow `dict.copy`, so `Q['pos']` and `Q['scores']` are the very same
  numpy arrays as `P['pos']` and `P['scores']`.  During a generation there is
  therefore a single position/score buffer, which the three phases mutate in
  place and which every read of `P['pos']` or `Q['pos']` observes.  The
  embedding renders the generation as a single `Buf` threaded through the
  phases, and the merge `np.vstack([P[...], Q[...]])` as appending that
  buffer to itself.
-/

namespace MOHO

/-- `determine_dominance score1 score2` (MOHO.py lines 36-49): `1` if
`score1` Pareto-dominates `score2` (`np.all(score1 <= score2)` and
`np.any(score1 < score2)`), `-1` in the symmetric case, `0` otherwise.
The elementwise numpy comparisons are rendered over the zipped lists. -/
def determine_dominance (score1 score2 : List ℚ) : Int :=
  if (score1.zip score2).all (fun p => decide (p.1 ≤ p.2)) &&
     (score1.zip score2).any (fun p => decide (p.1 < p.2)) then 1
  else if (score1.zip score2).all (fun p => decide (p.2 ≤ p.1)) &&
          (score1.zip score2).any (fun p => decide (p.2 < p.1)) then -1
  else 0

/-- Row `i` of a score matrix (numpy `scores[i, :]`). -/
def row (scores : List (List ℚ)) (i : ℕ) : List ℚ := scores.getD i []

/-- `Dominates scores i j`: individual `i` dominates individual `j`. -/
def Dominates (scores : List (List ℚ)) (i j : ℕ) : Prop :=
  determine_dominance (row scores i) (row scores j) = 1

instance (scores : List (List ℚ)) (i j : ℕ) : Decidable (Dominates scores i j) :=
  inferInstanceAs (Decidable (_ = _))

/-- Net content of `domination_sets[k]` after the pairwise double loop of
`non_dominated_sort` (lines 62-70).  For the ordered pairs `(m, k)` with
`m < k` the loop appends `m` when `determine_dominance(scores[m], scores[k])`
is `-1`; for the pairs `(k, m)` with `m > k` (Python `range(k+1, pop_size)`,
i.e. `List.range' (k+1) (pop_size-(k+1))`) it appends `m` when the result is
`1`.  Appends happen in increasing order of the outer loop index, so the two
filtered segments concatenate in this order. -/
def dominationSet (scores : List (List ℚ)) (k : ℕ) : List ℕ :=
  (List.range k).filter
    (fun m => decide (determine_dominance (row scores m) (row scores k) = -1))
  ++ (List.range' (k+1) (scores.length - (k+1))).filter
    (fun m => decide (determine_dominance (row scores k) (row scores m) = 1))

/-- Net content of `dominated_counts[k]` after the same double loop:
one increment per earlier row dominating `k` plus one per later row
dominating `k`. -/
def dominatedCount (scores : List (List ℚ)) (k : ℕ) : ℕ :=
  ((List.range k).filter
    (fun m => decide (determine_dominance (row scores m) (row scores k) = 1))).length
  + ((List.range' (k+1) (scores.length - (k+1))).filter
    (fun m => decide (determine_dominance (row scores k) (row scores m) = -1))).length

/-- Body of `dominated_counts[j] -= 1; if dominated_counts[j] == 0:
next_front_indices.append(j)` (lines 85-87), acting on the pair
(counts, next_front_indices). -/
def decBody (cn : List Int × List ℕ) (j : ℕ) : List Int × List ℕ :=
  let c := cn.1.getD j 0 - 1
  (cn.1.set j c, if c = 0 then cn.2 ++ [j] else cn.2)

/-- Inner double for-loop of the front-peeling while-loop (lines 82-87):
for each member `i` of the current front, decrement the count of everyone in
`domination_sets[i]`, collecting (in visit order) the indices whose count
reaches exactly zero. -/
def peelStep (sets : List (List ℕ)) (current : List ℕ) (counts : List Int) :
    List Int × List ℕ :=
  current.foldl (fun cn i => (sets.getD i []).foldl decBody cn) (counts, [])

/-- Fuelled rendering of the while-loop of the fast non-dominated sort
(lines 78-90): while the current front is nonempty, write the current front
number into `ranks` at its members, record the front, run `peelStep`, and
continue with the collected next front.  A fuel of `pop_size + 1` is enough:
every iteration with a nonempty current front ranks at least one previously
unranked individual (proved below). -/
def peel (sets : List (List ℕ)) :
    ℕ → List Int → List ℕ → ℕ → List ℕ → List (List ℕ) → List ℕ × List (List ℕ)
  | 0, _, _, _, ranks, fronts => (ranks, fronts)
  | fuel+1, counts, current, frontNum, ranks, fronts =>
    if current = [] then (ranks, fronts)
    else
      let ranks' := current.foldl (fun r i => r.set i frontNum) ranks
      let cn := peelStep sets current counts
      peel sets fuel cn.1 cn.2 (frontNum+1) ranks' (fronts ++ [current])

/-- `np.argsort` of a list of keys: the indices `0..n-1` sorted by key.
numpy's default quicksort is deterministic but unstable; the embedding fixes
the deterministic stable order of `List.mergeSort` (they agree whenever the
keys are distinct). -/
def argsortQ (col : List ℚ) : List ℕ :=
  (List.range col.length).mergeSort (fun a b => decide (col.getD a 0 ≤ col.getD b 0))

/-- Column `m` of a front's score matrix (`front_scores[:, m]`). -/
def colOf (fs : List (List ℚ)) (m : ℕ) : List ℚ := fs.map (fun r => r.getD m 0)

/-- Per-coordinate body of the crowding loop (lines 103-119): sort the front
by coordinate `m`; if the coordinate has zero range skip it; otherwise set
the two boundary slots of the sorted order to `inf` and add the normalized
gap `(next - previous) / (f_max - f_min)` to each interior slot. -/
def crowdStep (fs : List (List ℚ)) (dist : List (WithTop ℚ)) (m : ℕ) :
    List (WithTop ℚ) :=
  let n_front := fs.length
  let col := colOf fs m
  let sortIdx := argsortQ col
  let fmin := col.getD (sortIdx.getD 0 0) 0
  let fmax := col.getD (sortIdx.getD (n_front - 1) 0) 0
  if fmax = fmin then dist
  else
    let dist1 := dist.set (sortIdx.getD 0 0) ⊤
    let dist2 := dist1.set (sortIdx.getD (n_front - 1) 0) ⊤
    (List.range' 1 (n_front - 2)).foldl
      (fun d i =>
        let p := sortIdx.getD i 0
        d.set p (d.getD p 0 +
          (((col.getD (sortIdx.getD (i+1) 0) 0 -
             col.getD (sortIdx.getD (i-1) 0) 0) / (fmax - fmin) : ℚ) :
            WithTop ℚ)))
      dist2

/-- Crowding distances of one front, indexed by position inside the front
(per-front body of Part 2 of `non_dominated_sort`, lines 94-121).  Fronts of
size at most 2 get `inf` (= `⊤`) everywhere; larger fronts accumulate
`crowdStep` over all objective coordinates starting from zeros. -/
def crowding_of_front (front_scores : List (List ℚ)) (n_obj : ℕ) :
    List (WithTop ℚ) :=
  if front_scores.length ≤ 2 then List.replicate front_scores.length ⊤
  else
    (List.range n_obj).foldl (crowdStep front_scores)
      (List.replicate front_scores.length (0 : WithTop ℚ))

/-- `crowding_distances[front] = distances_in_front` (line 121): scatter the
per-front values back into the population-indexed array. -/
def scatterFront (cd : List (WithTop ℚ)) (front : List ℕ)
    (vals : List (WithTop ℚ)) : List (WithTop ℚ) :=
  (front.zip vals).foldl (fun c p => c.set p.1 p.2) cd

/-- The initial `dominated_counts` array (as `Int`, matching the numpy
integer array that the while-loop later decrements). -/
def ndsCounts (scores : List (List ℚ)) : List Int :=
  (List.range scores.length).map (fun k => (dominatedCount scores k : Int))

/-- The `domination_sets` list. -/
def ndsSets (scores : List (List ℚ)) : List (List ℕ) :=
  (List.range scores.length).map (fun k => dominationSet scores k)

/-- Front 1, `np.where(dominated_counts == 0)[0]` (ascending indices). -/
def ndsZeroFront (scores : List (List ℚ)) : List ℕ :=
  (List.range scores.length).filter (fun i => decide ((ndsCounts scores).getD i 0 = 0))

/-- Part 1 of `non_dominated_sort`: ranks and the discovered fronts. -/
def ndsPeel (scores : List (List ℚ)) : List ℕ × List (List ℕ) :=
  peel (ndsSets scores) (scores.length + 1) (ndsCounts scores)
    (ndsZeroFront scores) 1 (List.replicate scores.length 0) []

/-- The ranks assigned by `non_dominated_sort`. -/
def ndsRanks (scores : List (List ℚ)) : List ℕ := (ndsPeel scores).1

/-- The fronts discovered by `non_dominated_sort`, in increasing rank
order. -/
def ndsFronts (scores : List (List ℚ)) : List (List ℕ) := (ndsPeel scores).2

/-- `non_dominated_sort` (lines 52-123): fast non-dominated sorting plus
crowding distances.  `n_obj` is the common row length of the rectangular
numpy score matrix (taken from its first row).  `ranks` start as
`np.zeros(pop_size)`. -/
def non_dominated_sort (scores : List (List ℚ)) : List ℕ × List (WithTop ℚ) :=
  let n_obj := (scores.getD 0 []).length
  let crowd := (ndsFronts scores).foldl
    (fun cd front =>
      scatterFront cd front
        (crowding_of_front (front.map (fun i => row scores i)) n_obj))
    (List.replicate scores.length (0 : WithTop ℚ))
  (ndsRanks scores, crowd)

/-- Elementwise vector addition (numpy broadcasting over equal shapes). -/
def vAdd (a b : List ℚ) : List ℚ := List.zipWith (· + ·) a b

/-- Elementwise vector subtraction. -/
def vSub (a b : List ℚ) : List ℚ := List.zipWith (· - ·) a b

/-- Elementwise vector product. -/
def vMul (a b : List ℚ) : List ℚ := List.zipWith (· * ·) a b

/-- Scalar times vector. -/
def sMul (c : ℚ) (a : List ℚ) : List ℚ := a.map (fun x => c * x)

/-- `np.mean(rows, axis=0)`. -/
def meanRows (rows : List (List ℚ)) (dim : ℕ) : List ℚ :=
  sMul (1 / (rows.length : ℚ)) (rows.foldl vAdd (List.replicate dim 0))

/-- `np.clip(x, lb, ub)` for a scalar. -/
def clip (lb ub x : ℚ) : ℚ := min (max x lb) ub

/-- `np.clip` over a position vector. -/
def clipVec (lb ub : ℚ) (xs : List ℚ) : List ℚ := xs.map (clip lb ub)

/-- The single per-generation position/score buffer.  Because `Q = P.copy()`
is a shallow copy, `P['pos']`/`Q['pos']` and `P['scores']`/`Q['scores']` name
the same arrays; this structure is that shared storage. -/
structure Buf where
  pos : List (List ℚ)
  scores : List (List ℚ)

/-- The dominance-gated acceptance kernel shared by all three phases
(lines 204-209, 224-228, 241-245): clip the candidate to bounds, evaluate
it, and overwrite slot `i` of the buffer exactly when the candidate's score
is not dominated by the score currently stored at slot `i`
(`determine_dominance(score_new, Q['scores'][i]) >= 0`). -/
def try_accept (f : List ℚ → List ℚ) (lb ub : ℚ) (i : ℕ) (B : Buf)
    (X : List ℚ) : Buf :=
  let Xc := clipVec lb ub X
  let s := f Xc
  if 0 ≤ determine_dominance s (B.scores.getD i []) then
    ⟨B.pos.set i Xc, B.scores.set i s⟩
  else B

/-- Explicit random tape standing for the seeded global `np.random` stream.
`u ph t i k` is the `k`-th uniform `[0,1)` draw of phase `ph` (0 =
initialization/exploration, 1 = defense, 2 = escape) in generation `t` for
individual `i`; the other fields model the remaining primitive draws (see
the module docstring for `levyv` and `cosl`). -/
structure Tape where
  u : ℕ → ℕ → ℕ → ℕ → ℚ
  i2 : ℕ → ℕ → ℕ → ℕ
  choice : ℕ → ℕ → ℕ
  perm : ℕ → ℕ → List ℕ
  isize : ℕ → ℕ → ℕ
  levyv : ℕ → ℕ → List ℚ
  cosl : ℕ → ℕ → ℚ

/-- `np.random.permutation(pop_size)` must be a permutation of
`0..pop_size-1`; a tape draw that is not one is replaced by the identity
permutation (a total-function guard; every actual numpy draw satisfies the
test). -/
def permDraw (tape : Tape) (t i pop_size : ℕ) : List ℕ :=
  let p := tape.perm t i
  if p.mergeSort (fun a b => decide (a ≤ b)) = List.range pop_size then p
  else List.range pop_size

/-- Exploration candidate `X_P1` (line 192), read off the shared buffer `B`
(shallow-copy aliasing: every read of `P['pos']` observes the buffer). -/
def explorationCandA (tape : Tape) (dim : ℕ) (B : Buf) (t : ℕ)
    (front1 : List ℕ) (i : ℕ) : List ℚ :=
  let leader_idx := front1.getD (tape.choice t i % front1.length) 0
  let dominant := B.pos.getD leader_idx []
  let I1 : ℕ := 1 + tape.i2 t i 0 % 2
  let r1 := tape.u 0 t i (2 * dim)
  vAdd (B.pos.getD i [])
    (sMul r1 (vSub dominant (sMul (I1 : ℚ) (B.pos.getD i []))))

/-- Exploration candidate `X_P2` (lines 194-201): the `T > 0.6` branch uses
vector `A` against the group mean, otherwise a coin chooses between the `B`
vector form and a fresh uniform position in bounds. -/
def explorationCandB (tape : Tape) (texp : ℕ → ℕ → Bool)
    (pop_size max_gen : ℕ) (lb ub : ℚ) (dim : ℕ) (t : ℕ) (front1 : List ℕ)
    (B : Buf) (i : ℕ) : List ℚ :=
  let leader_idx := front1.getD (tape.choice t i % front1.length) 0
  let dominant := B.pos.getD leader_idx []
  let I2 : ℕ := 1 + tape.i2 t i 1 % 2
  let perm := permDraw tape t i pop_size
  let subsz := 1 + tape.isize t i % pop_size
  let mean_group := meanRows ((perm.take subsz).map (fun k => B.pos.getD k [])) dim
  let Av := (List.range dim).map (fun k => 2 * tape.u 0 t i k - 1)
  let Bv := (List.range dim).map (fun k => 2 * tape.u 0 t i (dim + k) - 1)
  if texp t max_gen then
    vAdd (B.pos.getD i []) (vMul Av (vSub dominant (sMul (I2 : ℚ) mean_group)))
  else if 1/2 < tape.u 0 t i (2*dim + 1) then
    vAdd (B.pos.getD i []) (vMul Bv (vSub mean_group dominant))
  else
    (List.range dim).map (fun k => lb + tape.u 0 t i (2*dim + 2 + k) * (ub - lb))

/-- Exploration phase body for individual `i` in generation `t`
(lines 181-209).  Both candidates are computed before the acceptance loop
`for X_new in [X_P1, X_P2]`, then accepted in that strict order: the second
`try_accept` runs on the buffer possibly already overwritten by the
first. -/
def exploration_step (tape : Tape) (texp : ℕ → ℕ → Bool)
    (f : List ℚ → List ℚ) (pop_size max_gen : ℕ) (lb ub : ℚ) (dim : ℕ)
    (t : ℕ) (front1 : List ℕ) (B : Buf) (i : ℕ) : Buf :=
  let X_P1 := explorationCandA tape dim B t front1 i
  let X_P2 := explorationCandB tape texp pop_size max_gen lb ub dim t front1 B i
  try_accept f lb ub i (try_accept f lb ub i B X_P1) X_P2

/-- Phase 1, exploration, over the first half `range(pop_size // 2)`. -/
def exploration_phase (tape : Tape) (texp : ℕ → ℕ → Bool)
    (f : List ℚ → List ℚ) (pop_size max_gen : ℕ) (lb ub : ℚ) (dim : ℕ)
    (t : ℕ) (front1 : List ℕ) (B : Buf) : Buf :=
  (List.range (pop_size / 2)).foldl
    (exploration_step tape texp f pop_size max_gen lb ub dim t front1) B

/-- Defense candidate `X_P3` (lines 215-221).  `0.05` is the rational
`1/20` and `1e-6` the rational `1/1000000`; the Levy vector and `cos(l)`
are abstract tape draws. -/
def defenseCand (tape : Tape) (lb ub : ℚ) (dim : ℕ) (t : ℕ) (B : Buf)
    (i : ℕ) : List ℚ :=
  let predator := (List.range dim).map (fun k => lb + tape.u 1 t i k * (ub - lb))
  let dist := List.zipWith (fun p x => |p - x|) predator (B.pos.getD i [])
  let RL := sMul (1/20) ((tape.levyv t i).takeD dim 0)
  let b := 2 + 2 * tape.u 1 t i dim
  let c := 1 + (1/2) * tape.u 1 t i (dim + 1)
  let d := 2 + tape.u 1 t i (dim + 2)
  vAdd (vMul RL predator)
    (sMul (b / (c - d * tape.cosl t i)) (dist.map (fun x => 1 / (x + 1/1000000))))

/-- Defense phase body for individual `i` (lines 214-228). -/
def defense_step (tape : Tape) (f : List ℚ → List ℚ) (lb ub : ℚ) (dim : ℕ)
    (t : ℕ) (B : Buf) (i : ℕ) : Buf :=
  try_accept f lb ub i B (defenseCand tape lb ub dim t B i)

/-- Phase 2, defense, over the second half `range(pop_size // 2, pop_size)`
(= `List.range' (pop_size/2) (pop_size - pop_size/2)`). -/
def defense_phase (tape : Tape) (f : List ℚ → List ℚ) (lb ub : ℚ) (dim : ℕ)
    (t pop_size : ℕ) (B : Buf) : Buf :=
  (List.range' (pop_size / 2) (pop_size - pop_size / 2)).foldl
    (defense_step tape f lb ub dim t) B

/-- Escape candidate `X_P4` (lines 234-238), using the generation-shrunk
local bounds `lb / t` and `ub / t` and reading `Q['pos'][i]` off the shared
buffer. -/
def escapeCand (tape : Tape) (lb ub : ℚ) (dim : ℕ) (t : ℕ) (B : Buf)
    (i : ℕ) : List ℚ :=
  let lo := lb / (t : ℚ)
  let hi := ub / (t : ℚ)
  let D := (List.range dim).map (fun k => 2 * tape.u 2 t i k - 1)
  let r := tape.u 2 t i dim
  vAdd (B.pos.getD i []) (sMul r (D.map (fun dk => lo + dk * (hi - lo))))

/-- Escape phase body for individual `i` (lines 233-245). -/
def escape_step (tape : Tape) (f : List ℚ → List ℚ) (lb ub : ℚ) (dim : ℕ)
    (t : ℕ) (B : Buf) (i : ℕ) : Buf :=
  try_accept f lb ub i B (escapeCand tape lb ub dim t B i)

/-- Phase 3, escape, over the whole population. -/
def escape_phase (tape : Tape) (f : List ℚ → List ℚ) (lb ub : ℚ) (dim : ℕ)
    (t pop_size : ℕ) (B : Buf) : Buf :=
  (List.range pop_size).foldl (escape_step tape f lb ub dim t) B

/-- The three movement phases of one generation, applied to the single
shared buffer that the shallow copy `Q = P.copy()` makes of both the
"parent" and the "offspring" population. -/
def runPhases (tape : Tape) (texp : ℕ → ℕ → Bool) (f : List ℚ → List ℚ)
    (pop_size max_gen : ℕ) (lb ub : ℚ) (dim : ℕ) (t : ℕ) (front1 : List ℕ)
    (B : Buf) : Buf :=
  escape_phase tape f lb ub dim t pop_size
    (defense_phase tape f lb ub dim t pop_size
      (exploration_phase tape texp f pop_size max_gen lb ub dim t front1 B))

/-- Number of slots already selected, then the while-loop of the elitist
selection (lines 259-278): consume fronts in increasing rank order; break on
an empty front; copy a whole front when it fits; otherwise take the needed
remainder by descending crowding distance
(`np.argsort(front_crowding)[::-1]`). -/
def selLoop (n : ℕ) (ranks : List ℕ) (crowd : List (WithTop ℚ)) (pop_size : ℕ) :
    ℕ → ℕ → List ℕ → List ℕ
  | 0, _, sel => sel
  | fuel+1, front_num, sel =>
    if pop_size ≤ sel.length then sel
    else
      let front_indices := (List.range n).filter
        (fun i => decide (ranks.getD i 0 = front_num))
      if front_indices = [] then sel
      else if sel.length + front_indices.length ≤ pop_size then
        selLoop n ranks crowd pop_size fuel (front_num+1) (sel ++ front_indices)
      else
        let remaining := pop_size - sel.length
        let fc := front_indices.map (fun i => crowd.getD i 0)
        let sortIdx := (List.range fc.length).mergeSort
          (fun a b => decide (fc.getD a 0 ≤ fc.getD b 0))
        sel ++ (sortIdx.reverse.take remaining).map (fun p => front_indices.getD p 0)

/-- `EnvironmentalSelection` (lines 248-281): stack the two populations it
is handed, rank the combined pool, and fill the preallocated `pop_size`-row
zero matrices front by front.  Slots the loop never reaches stay zero rows
(`np.zeros((pop_size, dim))` / `np.zeros((pop_size, 3))`). -/
def environmental_selection (pop_size dim : ℕ)
    (Ppos Pscores Qpos Qscores : List (List ℚ)) :
    List (List ℚ) × List (List ℚ) :=
  let Rpos := Ppos ++ Qpos
  let Rscores := Pscores ++ Qscores
  let rc := non_dominated_sort Rscores
  let sel := selLoop Rscores.length rc.1 rc.2 pop_size (pop_size + 1) 1 []
  (sel.map (fun i => Rpos.getD i []) ++
     List.replicate (pop_size - sel.length) (List.replicate dim 0),
   sel.map (fun i => Rscores.getD i []) ++
     List.replicate (pop_size - sel.length) (List.replicate 3 0))

/-- A ranked population (`P` of the source: positions, scores, ranks,
crowding distances). -/
structure Pop where
  pos : List (List ℚ)
  scores : List (List ℚ)
  ranks : List ℕ
  crowd : List (WithTop ℚ)

/-- Initialization (lines 159-166): uniform sampling in bounds
(`lb + (ub - lb) * np.random.rand(pop_size, dim)` with the phase-0,
generation-0 draws), evaluation of every row, and an initial ranking. -/
def initPop (tape : Tape) (f : List ℚ → List ℚ) (pop_size : ℕ) (lb ub : ℚ)
    (dim : ℕ) : Pop :=
  let pos := (List.range pop_size).map
    (fun i => (List.range dim).map (fun k => lb + (ub - lb) * tape.u 0 0 i k))
  let scores := pos.map f
  let rc := non_dominated_sort scores
  ⟨pos, scores, rc.1, rc.2⟩

/-- The rank-1 indices used as leader candidates, with the defensive
fallback to the whole index set (lines 174-176). -/
def frontOne (pop_size : ℕ) (ranks : List ℕ) : List ℕ :=
  let idx := (List.range pop_size).filter (fun i => decide (ranks.getD i 0 = 1))
  if idx = [] then List.range pop_size else idx

/-- One generation `t` of the main loop (lines 169-283): shallow-copy the
parent (hence: keep operating on the one shared buffer), run the three
phases, call the elitist selection on `P` and `Q` — which by the aliasing
are both that same mutated buffer — and re-rank the survivors. -/
def gen (tape : Tape) (texp : ℕ → ℕ → Bool) (f : List ℚ → List ℚ)
    (pop_size max_gen : ℕ) (lb ub : ℚ) (dim : ℕ) (t : ℕ) (P : Pop) : Pop :=
  let front1 := frontOne pop_size P.ranks
  let B := runPhases tape texp f pop_size max_gen lb ub dim t front1 ⟨P.pos, P.scores⟩
  let ns := environmental_selection pop_size dim B.pos B.scores B.pos B.scores
  let rc := non_dominated_sort ns.2
  ⟨ns.1, ns.2, rc.1, rc.2⟩

/-- The parent population after `k` generations (`k = 0` is the initial
population; generation numbers `t` run `1..max_gen` as in the source). -/
def mohoAfter (tape : Tape) (texp : ℕ → ℕ → Bool) (f : List ℚ → List ℚ)
    (pop_size max_gen : ℕ) (lb ub : ℚ) (dim : ℕ) : ℕ → Pop
  | 0 => initPop tape f pop_size lb ub dim
  | k+1 => gen tape texp f pop_size max_gen lb ub dim (k+1)
      (mohoAfter tape texp f pop_size max_gen lb ub dim k)

/-- `moho` (lines 154-287): run `max_gen` generations and return the final
rank-1 front (positions and scores). -/
def moho (tape : Tape) (texp : ℕ → ℕ → Bool) (f : List ℚ → List ℚ)
    (pop_size max_gen : ℕ) (lb ub : ℚ) (dim : ℕ) :
    List (List ℚ) × List (List ℚ) :=
  let P := mohoAfter tape texp f pop_size max_gen lb ub dim max_gen
  let idx := (List.range pop_size).filter (fun i => decide (P.ranks.getD i 0 = 1))
  (idx.map (fun i => P.pos.getD i []), idx.map (fun i => P.scores.getD i []))

/-- Bounds invariant predicate of spec §8: every coordinate of every stored
position lies in `[lb, ub]`. -/
def inBounds (lb ub : ℚ) (pos : List (List ℚ)) : Prop :=
  ∀ rw ∈ pos, ∀ x ∈ rw, lb ≤ x ∧ x ≤ ub

/-- Rectangularity of a numpy matrix: every row has length `L`. -/
def Rect (scores : List (List ℚ)) (L : ℕ) : Prop :=
  ∀ rw ∈ scores, rw.length = L

instance (scores : List (List ℚ)) (L : ℕ) : Decidable (Rect scores L) :=
  inferInstanceAs (Decidable (∀ rw ∈ scores, rw.length = L))

/-- Coordinate `m` has nonzero range over the front: the sorted maximum and
minimum differ (`f_max != f_min`). -/
def nzRange (fs : List (List ℚ)) (m : ℕ) : Prop :=
  (colOf fs m).getD ((argsortQ (colOf fs m)).getD (fs.length - 1) 0) 0 ≠
    (colOf fs m).getD ((argsortQ (colOf fs m)).getD 0 0) 0

/-- Slot `p` is a boundary member of coordinate `m`: first (minimum) or last
(maximum) in the coordinate-sorted order of the front. -/
def boundarySlot (fs : List (List ℚ)) (m p : ℕ) : Prop :=
  p = (argsortQ (colOf fs m)).getD 0 0 ∨
    p = (argsortQ (colOf fs m)).getD (fs.length - 1) 0

instance (fs : List (List ℚ)) (m : ℕ) : Decidable (nzRange fs m) :=
  inferInstanceAs (Decidable (_ ≠ _))

instance (fs : List (List ℚ)) (m p : ℕ) : Decidable (boundarySlot fs m p) :=
  inferInstanceAs (Decidable (_ ∨ _))

/-- The interior contribution of coordinate `m` at slot `p` as claim C5
words it: (next value − previous value) / (max value − min value) along the
coordinate-sorted order of the front. -/
def interiorContrib (fs : List (List ℚ)) (m p : ℕ) : ℚ :=
  let col := colOf fs m
  let s := argsortQ col
  let i := s.indexOf p
  (col.getD (s.getD (i+1) 0) 0 - col.getD (s.getD (i-1) 0) 0) /
    (col.getD (s.getD (fs.length - 1) 0) 0 - col.getD (s.getD 0 0) 0)

/-- Claim C5's description of the crowding value of slot `p` of a front with
more than two members (a claim-side formula, to be compared with the
source-translated `crowding_of_front`): `⊤` exactly when `p` is a boundary
member of some nonzero-range coordinate, otherwise the sum over the
nonzero-range coordinates of the interior contributions (zero-range
coordinates contribute nothing). -/
def crowdingSpecAt (fs : List (List ℚ)) (n_obj p : ℕ) : WithTop ℚ :=
  if (List.range n_obj).any
      (fun m => decide (nzRange fs m) && decide (boundarySlot fs m p)) then ⊤
  else
    (((((List.range n_obj).filter (fun m => decide (nzRange fs m))).map
        (fun m => interiorContrib fs m p)).sum : ℚ) : WithTop ℚ)

/-- Uniform draws of the concrete run used against claims C1/C3/C8: an
explicit finite tape (all unspecified draws are 0). -/
def uC1 : ℕ → ℕ → ℕ → ℕ → ℚ
  | 0, 0, 0, 0 => 1/2
  | 0, 0, 1, 0 => 3/4
  | 0, 1, 0, 2 => 1
  | 0, 1, 0, 3 => 1/4
  | 0, 1, 0, 4 => 1
  | 2, 1, 0, 0 => 1/2
  | 2, 1, 1, 0 => 1/2
  | _, _, _, _ => 0

/-- `randint(1, 3)` raw draws of the concrete run: `I1 = 2` for the first
exploration step, everything else 1. -/
def i2C1 : ℕ → ℕ → ℕ → ℕ
  | 1, 0, 0 => 1
  | _, _, _ => 0

/-- The concrete tape. -/
def tapeC1 : Tape :=
  ⟨uC1, i2C1, fun _ _ => 0, fun _ _ => [0, 1], fun _ _ => 0, fun _ _ => [],
   fun _ _ => 0⟩

/-- The oracle for `exp(-t/max_gen) > 0.6` of the concrete run: at
`t = max_gen = 1` the true value is `exp(-1) ≈ 0.368 < 0.6`, so `false`. -/
def texpC1 : ℕ → ℕ → Bool := fun _ _ => false

/-- Initial population of the concrete run: `pop_size = 2`, `dim = 1`,
bounds `[0, 1]`, identity evaluator.  Positions `[[1/2], [3/4]]`. -/
def P0C1 : Pop := initPop tapeC1 (fun xs => xs) 2 0 1 1

/-- The shared buffer after the three phases of generation 1 of the
concrete run. -/
def BufC1 : Buf :=
  runPhases tapeC1 texpC1 (fun xs => xs) 2 1 0 1 1 1 (frontOne 2 P0C1.ranks)
    ⟨P0C1.pos, P0C1.scores⟩

/-- Number of already-ranked dominators of individual `j` (`ranks[i] != 0`
plays the role of "already assigned to a front"; ranks start at the
`np.zeros` state). -/
def rankedDominators (scores : List (List ℚ)) (ranks : List ℕ) (j : ℕ) : ℕ :=
  (List.range scores.length).countP
    (fun i => decide (ranks.getD i 0 ≠ 0) && decide (Dominates scores i j))

/-- Loop invariant of the front-peeling while-loop of
`non_dominated_sort`. -/
structure PeelInv (scores : List (List ℚ)) (counts : List Int)
    (current : List ℕ) (frontNum : ℕ) (ranks : List ℕ)
    (fronts : List (List ℕ)) : Prop where
  ranks_len : ranks.length = scores.length
  counts_len : counts.length = scores.length
  counts_eq : ∀ j < scores.length,
    counts.getD j 0 =
      (dominatedCount scores j : Int) - (rankedDominators scores ranks j : Int)
  cur_nodup : current.Nodup
  cur_lt : ∀ j ∈ current, j < scores.length
  cur_unranked : ∀ j ∈ current, ranks.getD j 0 = 0
  cur_zero : ∀ j ∈ current, counts.getD j 0 = 0
  pending_pos : ∀ j < scores.length,
    ranks.getD j 0 = 0 → j ∉ current → 1 ≤ counts.getD j 0
  ranks_lt : ∀ j, ranks.getD j 0 < frontNum
  ranks_attained : ∀ r, 1 ≤ r → r < frontNum → ∃ j < scores.length,
    ranks.getD j 0 = r
  frontNum_pos : 1 ≤ frontNum
  rank_one : ∀ j < scores.length,
    (ranks.getD j 0 = 1 ↔ (2 ≤ frontNum ∧ dominatedCount scores j = 0))
  ranked_closed : ∀ j < scores.length, ranks.getD j 0 ≠ 0 →
    ∀ i < scores.length, Dominates scores i j → ranks.getD i 0 ≠ 0
  fronts_len : fronts.length + 1 = frontNum
  fronts_mem : ∀ fi < fronts.length, ∀ j,
    (j ∈ fronts.getD fi [] ↔ (j < scores.length ∧ ranks.getD j 0 = fi + 1))
  fronts_nodup : ∀ F ∈ fronts, F.Nodup

/-- A constant tape (every uniform draw `1/2`, everything else trivial)
used for the concrete bounds-invariant run. -/
def tapeC7 : Tape :=
  ⟨fun _ _ _ _ => 1/2, fun _ _ _ => 0, fun _ _ => 0, fun _ _ => [],
    fun _ _ => 0, fun _ _ => [], fun _ _ => 0⟩

/-! ### Theorems -/

theorem zip_all_iff (R : ℚ → ℚ → Prop) [DecidableRel R] :
    ∀ (a b : List ℚ), a.length = b.length →
      ((((a.zip b).all fun p => decide (R p.1 p.2)) = true) ↔
        ∀ i < a.length, R (a.getD i 0) (b.getD i 0))
  | [], [], _ => by simp
  | [], _ :: _, h => by simp at h
  | _ :: _, [], h => by simp at h
  | x :: xs, y :: ys, h => by
    have hlen : xs.length = ys.length := by simpa using h
    simp only [List.zip_cons_cons, List.all_cons, Bool.and_eq_true,
      decide_eq_true_eq, List.length_cons]
    rw [zip_all_iff R xs ys hlen]
    constructor
    · rintro ⟨h0, hrest⟩ i hi
      cases i with
      | zero => simpa using h0
      | succ n => simpa using hrest n (by omega)
    · intro hall
      exact ⟨by simpa using hall 0 (by omega),
        fun i hi => by simpa using hall (i+1) (by omega)⟩

theorem zip_any_iff (R : ℚ → ℚ → Prop) [DecidableRel R] :
    ∀ (a b : List ℚ), a.length = b.length →
      ((((a.zip b).any fun p => decide (R p.1 p.2)) = true) ↔
        ∃ i, i < a.length ∧ R (a.getD i 0) (b.getD i 0))
  | [], [], _ => by simp
  | [], _ :: _, h => by simp at h
  | _ :: _, [], h => by simp at h
  | x :: xs, y :: ys, h => by
    have hlen : xs.length = ys.length := by simpa using h
    simp only [List.zip_cons_cons, List.any_cons, Bool.or_eq_true,
      decide_eq_true_eq, List.length_cons]
    rw [zip_any_iff R xs ys hlen]
    constructor
    · rintro (h0 | ⟨i, hi, hR⟩)
      · exact ⟨0, by omega, by simpa using h0⟩
      · exact ⟨i+1, by omega, by simpa using hR⟩
    · rintro ⟨i, hi, hR⟩
      cases i with
      | zero => exact Or.inl (by simpa using hR)
      | succ n => exact Or.inr ⟨n, by omega, by simpa using hR⟩

/-- The two gating conditions of `determine_dominance` cannot hold at
once. -/
theorem dd_not_both {a b : List ℚ}
    (h1 : (((a.zip b).all fun p => decide (p.1 ≤ p.2)) &&
      ((a.zip b).any fun p => decide (p.1 < p.2))) = true)
    (h2 : (((a.zip b).all fun p => decide (p.2 ≤ p.1)) &&
      ((a.zip b).any fun p => decide (p.2 < p.1))) = true) : False := by
  rw [Bool.and_eq_true] at h1 h2
  rw [List.any_eq_true] at h1
  rw [List.all_eq_true] at h2
  obtain ⟨p, hp, hlt⟩ := h1.2
  have hle := h2.1 p hp
  simp only [decide_eq_true_eq] at hlt hle
  exact absurd hle (not_le.mpr hlt)

theorem dd_eq_one_iff (a b : List ℚ) :
    determine_dominance a b = 1 ↔
      ((((a.zip b).all fun p => decide (p.1 ≤ p.2)) &&
        ((a.zip b).any fun p => decide (p.1 < p.2))) = true) := by
  unfold determine_dominance
  split
  · next h => simp [h]
  · next h =>
      split
      · next h2 => simp [h]
      · next h2 => simp [h]

theorem dd_eq_negone_iff (a b : List ℚ) :
    determine_dominance a b = -1 ↔
      ((((a.zip b).all fun p => decide (p.2 ≤ p.1)) &&
        ((a.zip b).any fun p => decide (p.2 < p.1))) = true) := by
  unfold determine_dominance
  split
  · next h =>
      constructor
      · intro hc; exact absurd hc (by decide)
      · intro h2; exact absurd (dd_not_both h h2) (fun x => x)
  · next h =>
      split
      · next h2 => simp [h2]
      · next h2 => simp [h2]

theorem dd_eq_zero_iff (a b : List ℚ) :
    determine_dominance a b = 0 ↔
      (¬((((a.zip b).all fun p => decide (p.1 ≤ p.2)) &&
          ((a.zip b).any fun p => decide (p.1 < p.2))) = true) ∧
       ¬((((a.zip b).all fun p => decide (p.2 ≤ p.1)) &&
          ((a.zip b).any fun p => decide (p.2 < p.1))) = true)) := by
  unfold determine_dominance
  split
  · next h => simp [h]
  · next h =>
      split
      · next h2 => simp [h, h2]
      · next h2 => simp [h, h2]

/-- C9.  `determine_dominance` realises the three-valued Pareto relation:
`+1` iff the first vector is coordinatewise `≤` with a strict coordinate,
`-1` in the symmetric case, `0` otherwise; and the two spec scenarios
`dominance([1,2,3],[2,3,4]) = 1` and `dominance([1,5],[5,1]) = 0` hold. -/
theorem C9_determine_dominance (a b : List ℚ) (h : a.length = b.length) :
    (determine_dominance a b = 1 ↔
      ((∀ i < a.length, a.getD i 0 ≤ b.getD i 0) ∧
        ∃ i, i < a.length ∧ a.getD i 0 < b.getD i 0)) ∧
    (determine_dominance a b = -1 ↔
      ((∀ i < a.length, b.getD i 0 ≤ a.getD i 0) ∧
        ∃ i, i < a.length ∧ b.getD i 0 < a.getD i 0)) ∧
    (determine_dominance a b = 0 ↔
      (¬((∀ i < a.length, a.getD i 0 ≤ b.getD i 0) ∧
          ∃ i, i < a.length ∧ a.getD i 0 < b.getD i 0) ∧
       ¬((∀ i < a.length, b.getD i 0 ≤ a.getD i 0) ∧
          ∃ i, i < a.length ∧ b.getD i 0 < a.getD i 0))) ∧
    determine_dominance [1, 2, 3] [2, 3, 4] = 1 ∧
    determine_dominance [1, 5] [5, 1] = 0 := by
  have hall1 := zip_all_iff (fun x y => x ≤ y) a b h
  have hany1 := zip_any_iff (fun x y => x < y) a b h
  have hall2 := zip_all_iff (fun x y => y ≤ x) a b h
  have hany2 := zip_any_iff (fun x y => y < x) a b h
  refine ⟨?_, ?_, ?_, by with_unfolding_all decide, by with_unfolding_all decide⟩
  · rw [dd_eq_one_iff, Bool.and_eq_true, hall1, hany1]
  · rw [dd_eq_negone_iff, Bool.and_eq_true, hall2, hany2]
  · rw [dd_eq_zero_iff, Bool.and_eq_true, Bool.and_eq_true, hall1, hany1,
      hall2, hany2]

theorem C9_determine_dominance_witness :
    ([1, 2, 3] : List ℚ).length = ([2, 3, 4] : List ℚ).length ∧
    determine_dominance [1, 2, 3] [2, 3, 4] = 1 :=
  ⟨rfl, (C9_determine_dominance [1, 2, 3] [2, 3, 4] rfl).2.2.2.1⟩

/-- C8.  Determinism: the embedding threads all randomness through the
explicit tape (the seeded `np.random` stream) and the evaluator is a pure
function, so two runs with equal tapes, evaluators and configurations
produce equal parent populations at every generation and equal final
fronts. -/
theorem C8_determinism (tape1 tape2 : Tape) (texp1 texp2 : ℕ → ℕ → Bool)
    (f1 f2 : List ℚ → List ℚ) (ps1 ps2 mg1 mg2 : ℕ) (lb1 lb2 ub1 ub2 : ℚ)
    (dim1 dim2 : ℕ) (ht : tape1 = tape2) (he : texp1 = texp2) (hf : f1 = f2)
    (hp : ps1 = ps2) (hm : mg1 = mg2) (hl : lb1 = lb2) (hu : ub1 = ub2)
    (hd : dim1 = dim2) :
    (∀ k, mohoAfter tape1 texp1 f1 ps1 mg1 lb1 ub1 dim1 k =
      mohoAfter tape2 texp2 f2 ps2 mg2 lb2 ub2 dim2 k) ∧
    moho tape1 texp1 f1 ps1 mg1 lb1 ub1 dim1 =
      moho tape2 texp2 f2 ps2 mg2 lb2 ub2 dim2 := by
  subst ht
  subst he
  subst hf
  subst hp
  subst hm
  subst hl
  subst hu
  subst hd
  exact ⟨fun _ => rfl, rfl⟩

theorem C8_determinism_witness :
    moho tapeC1 texpC1 (fun xs => xs) 2 1 0 1 1 =
      moho tapeC1 texpC1 (fun xs => xs) 2 1 0 1 1 :=
  (C8_determinism tapeC1 tapeC1 texpC1 texpC1 (fun xs => xs) (fun xs => xs)
    2 2 1 1 0 0 1 1 1 1 rfl rfl rfl rfl rfl rfl rfl rfl).2

/-- C3 counterexample.  The source performs no configuration validation at
all: at the malformed configuration `pop_size = 3` (odd) and `max_gen = 0`
(`< 1`), `moho` runs to completion and silently returns the initial
population's first front instead of reporting the precondition violation. -/
theorem C3_counterexample_silent_run :
    moho tapeC1 texpC1 (fun xs => xs) 3 0 0 1 1 = ([[0]], [[0]]) := by
  with_unfolding_all decide

/-- C3 amended.  There is no eager validation: for every configuration with
`max_gen = 0 < 1` the optimizer runs zero generations and returns the
rank-1 front of the initial population, with no error report of any kind
(the embedding is a total function with no error channel, mirroring the
absence of any check in lines 154-166). -/
theorem C3_amended_no_validation (tape : Tape) (texp : ℕ → ℕ → Bool)
    (f : List ℚ → List ℚ) (pop_size : ℕ) (lb ub : ℚ) (dim : ℕ) :
    moho tape texp f pop_size 0 lb ub dim =
      (((List.range pop_size).filter (fun i =>
          decide ((initPop tape f pop_size lb ub dim).ranks.getD i 0 = 1))).map
        (fun i => (initPop tape f pop_size lb ub dim).pos.getD i []),
       ((List.range pop_size).filter (fun i =>
          decide ((initPop tape f pop_size lb ub dim).ranks.getD i 0 = 1))).map
        (fun i => (initPop tape f pop_size lb ub dim).scores.getD i [])) := rfl

theorem C3_amended_no_validation_witness :
    moho tapeC1 texpC1 (fun xs => xs) 2 0 0 1 1 =
      (((List.range 2).filter (fun i =>
          decide ((initPop tapeC1 (fun xs => xs) 2 0 1 1).ranks.getD i 0
            = 1))).map
        (fun i => (initPop tapeC1 (fun xs => xs) 2 0 1 1).pos.getD i []),
       ((List.range 2).filter (fun i =>
          decide ((initPop tapeC1 (fun xs => xs) 2 0 1 1).ranks.getD i 0
            = 1))).map
        (fun i => (initPop tapeC1 (fun xs => xs) 2 0 1 1).scores.getD i [])) :=
  C3_amended_no_validation tapeC1 texpC1 (fun xs => xs) 2 0 1 1

/-- C1 (code bug).  `Q = P.copy()` is a shallow `dict.copy`, so the
offspring arrays are the parent's arrays: the concrete generation mutates
the parent's stored scores (slot 0 goes from `[1/2]` to `[0]` when
exploration accepts candidate A), hence the buffer handed to the elitist
selection as the parent differs from the generation-start parent, and the
"merged" pool consists of two copies of the same mutated buffer — the
selected next generation here contains the same individual twice while the
true parent value `[1/2]` is lost. -/
theorem C1_shallow_copy_mutates_parent :
    BufC1.scores = [[0], [3/4]] ∧
    P0C1.scores = [[1/2], [3/4]] ∧
    BufC1.scores ≠ P0C1.scores ∧
    (gen tapeC1 texpC1 (fun xs => xs) 2 1 0 1 1 1 P0C1).pos = [[0], [0]] := by
  with_unfolding_all decide

theorem getD_set_eq {α : Type} (l : List α) (i : ℕ) (a d : α)
    (h : i < l.length) : (l.set i a).getD i d = a := by
  rw [List.getD_eq_getElem?_getD, List.getElem?_set_self h]
  rfl

theorem getD_set_neq {α : Type} (l : List α) (i j : ℕ) (a d : α)
    (hij : i ≠ j) : (l.set i a).getD j d = l.getD j d := by
  rw [List.getD_eq_getElem?_getD, List.getElem?_set_ne hij,
    ← List.getD_eq_getElem?_getD]

theorem try_accept_accepts (f : List ℚ → List ℚ) (lb ub : ℚ) (i : ℕ)
    (B : Buf) (X : List ℚ)
    (hdd : 0 ≤ determine_dominance (f (clipVec lb ub X)) (B.scores.getD i [])) :
    try_accept f lb ub i B X =
      ⟨B.pos.set i (clipVec lb ub X), B.scores.set i (f (clipVec lb ub X))⟩ := by
  simp only [try_accept]
  rw [if_pos hdd]

theorem try_accept_rejects (f : List ℚ → List ℚ) (lb ub : ℚ) (i : ℕ)
    (B : Buf) (X : List ℚ)
    (hdd : determine_dominance (f (clipVec lb ub X)) (B.scores.getD i []) < 0) :
    try_accept f lb ub i B X = B := by
  simp only [try_accept]
  rw [if_neg (not_le.mpr hdd)]

theorem try_accept_scores_getD (f : List ℚ → List ℚ) (lb ub : ℚ) (i : ℕ)
    (B : Buf) (X : List ℚ) (hi : i < B.scores.length) :
    (try_accept f lb ub i B X).scores.getD i [] =
      if 0 ≤ determine_dominance (f (clipVec lb ub X)) (B.scores.getD i [])
      then f (clipVec lb ub X) else B.scores.getD i [] := by
  simp only [try_accept]
  split
  · exact getD_set_eq _ _ _ _ hi
  · rfl

theorem try_accept_frame (f : List ℚ → List ℚ) (lb ub : ℚ) (i j : ℕ)
    (B : Buf) (X : List ℚ) (hij : j ≠ i) :
    (try_accept f lb ub i B X).scores.getD j [] = B.scores.getD j [] ∧
    (try_accept f lb ub i B X).pos.getD j [] = B.pos.getD j [] := by
  simp only [try_accept]
  split
  · exact ⟨getD_set_neq _ _ _ _ _ (fun hc => hij hc.symm),
      getD_set_neq _ _ _ _ _ (fun hc => hij hc.symm)⟩
  · exact ⟨rfl, rfl⟩

theorem try_accept_scores_length (f : List ℚ → List ℚ) (lb ub : ℚ) (i : ℕ)
    (B : Buf) (X : List ℚ) :
    (try_accept f lb ub i B X).scores.length = B.scores.length := by
  simp only [try_accept]
  split
  · exact List.length_set _ _ _
  · rfl

theorem try_accept_pos_length (f : List ℚ → List ℚ) (lb ub : ℚ) (i : ℕ)
    (B : Buf) (X : List ℚ) :
    (try_accept f lb ub i B X).pos.length = B.pos.length := by
  simp only [try_accept]
  split
  · exact List.length_set _ _ _
  · rfl

/-- C2.  Each phase accepts through the same dominance-gated kernel: the
candidate is clipped, evaluated, and overwrites slot `i` exactly when its
score is not dominated by the score currently stored there (other slots are
untouched); the exploration step is the strict A-then-B composition of two
such acceptances, and B's acceptance test reads the slot value possibly
already overwritten by A — never the generation-start value when A was
accepted. -/
theorem C2_dominance_gated_acceptance (f : List ℚ → List ℚ) (lb ub : ℚ)
    (i : ℕ) (B : Buf) (X Y : List ℚ) (hi : i < B.scores.length) :
    (0 ≤ determine_dominance (f (clipVec lb ub X)) (B.scores.getD i []) →
      try_accept f lb ub i B X =
        ⟨B.pos.set i (clipVec lb ub X), B.scores.set i (f (clipVec lb ub X))⟩) ∧
    (determine_dominance (f (clipVec lb ub X)) (B.scores.getD i []) < 0 →
      try_accept f lb ub i B X = B) ∧
    ((try_accept f lb ub i B X).scores.getD i [] =
      if 0 ≤ determine_dominance (f (clipVec lb ub X)) (B.scores.getD i [])
      then f (clipVec lb ub X) else B.scores.getD i []) ∧
    (∀ j, j ≠ i →
      (try_accept f lb ub i B X).scores.getD j [] = B.scores.getD j [] ∧
      (try_accept f lb ub i B X).pos.getD j [] = B.pos.getD j []) ∧
    (∀ tape texp pop_size max_gen dim t front1,
      exploration_step tape texp f pop_size max_gen lb ub dim t front1 B i =
        try_accept f lb ub i
          (try_accept f lb ub i B (explorationCandA tape dim B t front1 i))
          (explorationCandB tape texp pop_size max_gen lb ub dim t front1 B i)) ∧
    (∀ tape dim t, defense_step tape f lb ub dim t B i =
      try_accept f lb ub i B (defenseCand tape lb ub dim t B i)) ∧
    (∀ tape dim t, escape_step tape f lb ub dim t B i =
      try_accept f lb ub i B (escapeCand tape lb ub dim t B i)) ∧
    ((try_accept f lb ub i (try_accept f lb ub i B X) Y).scores.getD i [] =
      if 0 ≤ determine_dominance (f (clipVec lb ub Y))
        (if 0 ≤ determine_dominance (f (clipVec lb ub X)) (B.scores.getD i [])
         then f (clipVec lb ub X) else B.scores.getD i [])
      then f (clipVec lb ub Y)
      else if 0 ≤ determine_dominance (f (clipVec lb ub X)) (B.scores.getD i [])
           then f (clipVec lb ub X) else B.scores.getD i []) := by
  refine ⟨try_accept_accepts f lb ub i B X, try_accept_rejects f lb ub i B X,
    try_accept_scores_getD f lb ub i B X hi,
    fun j hj => try_accept_frame f lb ub i j B X hj,
    fun _ _ _ _ _ _ _ => rfl, fun _ _ _ => rfl, fun _ _ _ => rfl, ?_⟩
  have hi2 : i < (try_accept f lb ub i B X).scores.length := by
    rw [try_accept_scores_length]
    exact hi
  rw [try_accept_scores_getD f lb ub i _ Y hi2,
    try_accept_scores_getD f lb ub i B X hi]

theorem C2_dominance_gated_acceptance_witness :
    (0 : ℕ) < (Buf.mk [[(0 : ℚ)]] [[(0 : ℚ)]]).scores.length ∧
    (try_accept (fun xs => xs) 0 1 0 (Buf.mk [[0]] [[0]]) [1]).scores.getD 0 []
      = [0] := by
  refine ⟨by decide, ?_⟩
  have h := (C2_dominance_gated_acceptance (fun xs => xs) 0 1 0
    (Buf.mk [[0]] [[0]]) [1] [1] (by decide)).2.2.1
  rw [h]
  with_unfolding_all decide

/-! ### Crowding-distance lemmas -/

theorem argsortQ_perm (col : List ℚ) :
    (argsortQ col).Perm (List.range col.length) :=
  List.mergeSort_perm _ _

theorem argsortQ_length (col : List ℚ) : (argsortQ col).length = col.length := by
  rw [(argsortQ_perm col).length_eq, List.length_range]

theorem argsortQ_nodup (col : List ℚ) : (argsortQ col).Nodup :=
  ((argsortQ_perm col).nodup_iff).mpr (List.nodup_range _)

theorem argsortQ_mem (col : List ℚ) {p : ℕ} :
    p ∈ argsortQ col ↔ p < col.length := by
  rw [(argsortQ_perm col).mem_iff, List.mem_range]

theorem getD_lt_of_argsortQ (col : List ℚ) {i : ℕ}
    (hi : i < (argsortQ col).length) : (argsortQ col).getD i 0 < col.length := by
  rw [List.getD_eq_getElem _ _ hi]
  exact (argsortQ_mem col).mp (List.getElem_mem hi)

theorem getD_inj_of_nodup {l : List ℕ} (h : l.Nodup) {i j : ℕ}
    (hi : i < l.length) (hj : j < l.length)
    (he : l.getD i 0 = l.getD j 0) : i = j := by
  rw [List.getD_eq_getElem _ _ hi, List.getD_eq_getElem _ _ hj] at he
  exact (h.getElem_inj_iff).mp he

theorem foldl_addset_length (slot : ℕ → ℕ) (c : ℕ → WithTop ℚ) :
    ∀ (idxs : List ℕ) (d : List (WithTop ℚ)),
      (idxs.foldl (fun d i => d.set (slot i) (d.getD (slot i) 0 + c i)) d).length
        = d.length
  | [], _ => rfl
  | i :: idxs, d => by
    rw [List.foldl_cons, foldl_addset_length slot c idxs, List.length_set]

theorem foldl_addset_not_mem (slot : ℕ → ℕ) (c : ℕ → WithTop ℚ) :
    ∀ (idxs : List ℕ) (d : List (WithTop ℚ)) (p : ℕ),
      (∀ i ∈ idxs, slot i ≠ p) →
      (idxs.foldl (fun d i => d.set (slot i) (d.getD (slot i) 0 + c i)) d).getD p 0
        = d.getD p 0
  | [], _, _, _ => rfl
  | i :: idxs, d, p, h => by
    rw [List.foldl_cons,
      foldl_addset_not_mem slot c idxs _ p (fun j hj => h j (by simp [hj])),
      getD_set_neq _ _ _ _ _ (h i (by simp))]

theorem foldl_addset_mem (slot : ℕ → ℕ) (c : ℕ → WithTop ℚ) :
    ∀ (idxs : List ℕ) (d : List (WithTop ℚ)) (p i0 : ℕ), i0 ∈ idxs →
      slot i0 = p →
      (∀ i ∈ idxs, ∀ j ∈ idxs, slot i = slot j → i = j) → idxs.Nodup →
      p < d.length →
      (idxs.foldl (fun d i => d.set (slot i) (d.getD (slot i) 0 + c i)) d).getD p 0
        = d.getD p 0 + c i0
  | [], _, _, _, h, _, _, _, _ => absurd h (List.not_mem_nil _)
  | i :: idxs, d, p, i0, hmem, hslot, hinj, hnd, hp => by
    rw [List.foldl_cons]
    rcases List.mem_cons.mp hmem with heq | htail
    · subst heq
      have hrest : ∀ j ∈ idxs, slot j ≠ p := by
        intro j hj hc
        have := hinj j (by simp [hj]) i0 (by simp) (by rw [hc, hslot])
        subst this
        exact (List.nodup_cons.mp hnd).1 hj
      rw [foldl_addset_not_mem slot c idxs _ p hrest, hslot,
        getD_set_eq _ _ _ _ hp]
    · have hni : slot i ≠ p := by
        intro hc
        have := hinj i (by simp) i0 (by simp [htail]) (by rw [hc, hslot])
        subst this
        exact (List.nodup_cons.mp hnd).1 htail
      rw [foldl_addset_mem slot c idxs _ p i0 htail hslot
          (fun a ha b hb => hinj a (by simp [ha]) b (by simp [hb]))
          (List.nodup_cons.mp hnd).2 (by rw [List.length_set]; exact hp),
        getD_set_neq _ _ _ _ _ hni]

theorem crowdStep_length (fs : List (List ℚ)) (dist : List (WithTop ℚ))
    (m : ℕ) : (crowdStep fs dist m).length = dist.length := by
  simp only [crowdStep]
  split
  · rfl
  · rw [foldl_addset_length, List.length_set, List.length_set]

theorem colOf_length (fs : List (List ℚ)) (m : ℕ) :
    (colOf fs m).length = fs.length := List.length_map _ _

theorem crowdStep_char (fs : List (List ℚ)) (hn : 3 ≤ fs.length)
    (dist : List (WithTop ℚ)) (hlen : dist.length = fs.length) (m p : ℕ)
    (hp : p < fs.length) :
    (crowdStep fs dist m).getD p 0 =
      if nzRange fs m then
        if boundarySlot fs m p then ⊤
        else dist.getD p 0 + ((interiorContrib fs m p : ℚ) : WithTop ℚ)
      else dist.getD p 0 := by
  have hcol : (colOf fs m).length = fs.length := colOf_length fs m
  have hslen : (argsortQ (colOf fs m)).length = fs.length := by
    rw [argsortQ_length, hcol]
  have hs0 : (0 : ℕ) < (argsortQ (colOf fs m)).length := by omega
  have hsl : fs.length - 1 < (argsortQ (colOf fs m)).length := by omega
  have hslot0 : (argsortQ (colOf fs m)).getD 0 0 < fs.length := by
    have := getD_lt_of_argsortQ (colOf fs m) hs0
    omega
  have hslotl : (argsortQ (colOf fs m)).getD (fs.length - 1) 0 < fs.length := by
    have := getD_lt_of_argsortQ (colOf fs m) hsl
    omega
  have hne0l : (argsortQ (colOf fs m)).getD 0 0 ≠
      (argsortQ (colOf fs m)).getD (fs.length - 1) 0 := by
    intro hc
    have := getD_inj_of_nodup (argsortQ_nodup (colOf fs m)) hs0 hsl hc
    omega
  have hmemlt : ∀ i ∈ List.range' 1 (fs.length - 2),
      i < (argsortQ (colOf fs m)).length := by
    intro i hi
    rw [List.mem_range'] at hi
    obtain ⟨k, hk, rfl⟩ := hi
    omega
  by_cases hnz : nzRange fs m
  · rw [if_pos hnz]
    unfold nzRange at hnz
    simp only [crowdStep]
    rw [if_neg hnz]
    by_cases hb : boundarySlot fs m p
    · rw [if_pos hb]
      have hpne : ∀ i ∈ List.range' 1 (fs.length - 2),
          (argsortQ (colOf fs m)).getD i 0 ≠ p := by
        intro i hi hc
        have hilt := hmemlt i hi
        rw [List.mem_range'] at hi
        obtain ⟨k, hk, hik⟩ := hi
        rcases hb with hb | hb
        · have := getD_inj_of_nodup (argsortQ_nodup (colOf fs m)) hilt hs0
            (by rw [hc, hb])
          omega
        · have := getD_inj_of_nodup (argsortQ_nodup (colOf fs m)) hilt hsl
            (by rw [hc, hb])
          omega
      refine Eq.trans (foldl_addset_not_mem _ _ _ _ p hpne) ?_
      rcases hb with hb | hb
      · rw [getD_set_neq _ _ _ _ _ (fun hc => hne0l (by rw [← hb, hc])), hb,
          getD_set_eq _ _ _ _ (by rw [hlen]; exact hslot0)]
      · rw [hb, getD_set_eq _ _ _ _
          (by rw [List.length_set, hlen]; exact hslotl)]
    · rw [if_neg hb]
      have hpmem : p ∈ argsortQ (colOf fs m) := by
        rw [argsortQ_mem, hcol]
        exact hp
      have hiplt : List.indexOf p (argsortQ (colOf fs m)) <
          (argsortQ (colOf fs m)).length := List.indexOf_lt_length.mpr hpmem
      have hipget : (argsortQ (colOf fs m)).getD
          (List.indexOf p (argsortQ (colOf fs m))) 0 = p := by
        rw [List.getD_eq_getElem _ _ hiplt]
        exact List.getElem_indexOf hiplt
      have hipne0 : List.indexOf p (argsortQ (colOf fs m)) ≠ 0 := by
        intro hc
        exact hb (Or.inl (by rw [← hipget, hc]))
      have hipnel : List.indexOf p (argsortQ (colOf fs m)) ≠ fs.length - 1 := by
        intro hc
        exact hb (Or.inr (by rw [← hipget, hc]))
      have hipmem : List.indexOf p (argsortQ (colOf fs m)) ∈
          List.range' 1 (fs.length - 2) := by
        rw [List.mem_range']
        exact ⟨List.indexOf p (argsortQ (colOf fs m)) - 1, by omega, by omega⟩
      refine Eq.trans (foldl_addset_mem _ _ _ _ p
          (List.indexOf p (argsortQ (colOf fs m))) hipmem hipget
          (fun a ha b hb2 he =>
            getD_inj_of_nodup (argsortQ_nodup (colOf fs m)) (hmemlt a ha)
              (hmemlt b hb2) he)
          (List.nodup_range' _ _)
          (by rw [List.length_set, List.length_set, hlen]; exact hp)) ?_
      rw [getD_set_neq _ _ _ _ _ (fun hc => hb (Or.inr hc.symm)),
        getD_set_neq _ _ _ _ _ (fun hc => hb (Or.inl hc.symm))]
      rfl
  · rw [if_neg hnz]
    unfold nzRange at hnz
    push_neg at hnz
    simp only [crowdStep]
    rw [if_pos hnz]

theorem crowd_fold_char (fs : List (List ℚ)) (hn : 3 ≤ fs.length) (p : ℕ)
    (hp : p < fs.length) :
    ∀ (L : List ℕ) (dist : List (WithTop ℚ)), dist.length = fs.length →
      ((L.foldl (crowdStep fs) dist).getD p 0 =
        if ∃ m ∈ L, nzRange fs m ∧ boundarySlot fs m p then (⊤ : WithTop ℚ)
        else dist.getD p 0 +
          (((L.filter fun m => decide (nzRange fs m)).map
            (fun m => interiorContrib fs m p)).sum : ℚ))
  | [], dist, hlen => by simp
  | m :: L, dist, hlen => by
    rw [List.foldl_cons, crowd_fold_char fs hn p hp L (crowdStep fs dist m)
        (by rw [crowdStep_length]; exact hlen)]
    rw [crowdStep_char fs hn dist hlen m p hp]
    by_cases hnz : nzRange fs m
    · by_cases hb : boundarySlot fs m p
      · rw [if_pos (⟨m, List.mem_cons_self m L, hnz, hb⟩ :
          ∃ x ∈ m :: L, nzRange fs x ∧ boundarySlot fs x p)]
        by_cases hex : ∃ x ∈ L, nzRange fs x ∧ boundarySlot fs x p
        · rw [if_pos hex]
        · rw [if_neg hex, if_pos hnz, if_pos hb]
          exact top_add _
      · rw [if_pos hnz, if_neg hb]
        by_cases hex : ∃ x ∈ L, nzRange fs x ∧ boundarySlot fs x p
        · rw [if_pos hex, if_pos (by
            obtain ⟨x, hx, hprop⟩ := hex
            exact ⟨x, by simp [hx], hprop⟩)]
        · rw [if_neg hex, if_neg (by
            rintro ⟨x, hx, hxnz, hxb⟩
            rcases List.mem_cons.mp hx with rfl | hx2
            · exact hb hxb
            · exact hex ⟨x, hx2, hxnz, hxb⟩)]
          rw [List.filter_cons_of_pos (by simpa using hnz), List.map_cons,
            List.sum_cons, WithTop.coe_add, add_assoc]
    · rw [if_neg hnz]
      by_cases hex : ∃ x ∈ L, nzRange fs x ∧ boundarySlot fs x p
      · rw [if_pos hex, if_pos (by
          obtain ⟨x, hx, hprop⟩ := hex
          exact ⟨x, by simp [hx], hprop⟩)]
      · rw [if_neg hex, if_neg (by
          rintro ⟨x, hx, hxnz, hxb⟩
          rcases List.mem_cons.mp hx with rfl | hx2
          · exact hnz hxnz
          · exact hex ⟨x, hx2, hxnz, hxb⟩)]
        rw [List.filter_cons_of_neg (by simpa using hnz)]

/-! ### Dominance relation and domination-set lemmas -/

theorem mem_zip_self {a : List ℚ} : ∀ p ∈ a.zip a, p.1 = p.2 := by
  induction a with
  | nil => intro p hp; simp at hp
  | cons x xs ih =>
      intro p hp
      rcases List.mem_cons.mp hp with rfl | hp2
      · rfl
      · exact ih p hp2

theorem dd_self (a : List ℚ) : determine_dominance a a = 0 := by
  have hany1 : ((a.zip a).any fun p => decide (p.1 < p.2)) = false := by
    rw [List.any_eq_false]
    intro p hp
    simp [mem_zip_self p hp]
  have hany2 : ((a.zip a).any fun p => decide (p.2 < p.1)) = false := by
    rw [List.any_eq_false]
    intro p hp
    simp [mem_zip_self p hp]
  unfold determine_dominance
  rw [hany1, hany2]
  simp

theorem zip_all_swap (R : ℚ → ℚ → Prop) [DecidableRel R] (a b : List ℚ) :
    ((b.zip a).all fun p => decide (R p.1 p.2)) =
      ((a.zip b).all fun p => decide (R p.2 p.1)) := by
  rw [← List.zip_swap a b, List.all_map]
  rfl

theorem zip_any_swap (R : ℚ → ℚ → Prop) [DecidableRel R] (a b : List ℚ) :
    ((b.zip a).any fun p => decide (R p.1 p.2)) =
      ((a.zip b).any fun p => decide (R p.2 p.1)) := by
  rw [← List.zip_swap a b, List.any_map]
  rfl

theorem dd_negone_iff_rev (a b : List ℚ) :
    determine_dominance a b = -1 ↔ determine_dominance b a = 1 := by
  rw [dd_eq_negone_iff, dd_eq_one_iff, zip_all_swap (fun x y => x ≤ y) a b,
    zip_any_swap (fun x y => x < y) a b]

theorem Dominates_irrefl (scores : List (List ℚ)) (i : ℕ) :
    ¬Dominates scores i i := by
  unfold Dominates
  rw [dd_self]
  decide

theorem getD_mem {α : Type} {l : List α} {i : ℕ} (d : α) (h : i < l.length) :
    l.getD i d ∈ l := by
  rw [List.getD_eq_getElem _ _ h]
  exact List.getElem_mem h

theorem Dominates_trans {scores : List (List ℚ)} {L : ℕ}
    (hrect : Rect scores L) {i j k : ℕ} (hi : i < scores.length)
    (hj : j < scores.length) (hk : k < scores.length)
    (h1 : Dominates scores i j) (h2 : Dominates scores j k) :
    Dominates scores i k := by
  have hri : (row scores i).length = L := hrect _ (getD_mem [] hi)
  have hrj : (row scores j).length = L := hrect _ (getD_mem [] hj)
  have hrk : (row scores k).length = L := hrect _ (getD_mem [] hk)
  unfold Dominates at h1 h2 ⊢
  rw [dd_eq_one_iff, Bool.and_eq_true] at h1 h2 ⊢
  rw [zip_all_iff (fun x y => x ≤ y) _ _ (by omega),
    zip_any_iff (fun x y => x < y) _ _ (by omega)] at h1 h2 ⊢
  rw [hri] at h1 ⊢
  rw [hrj] at h2
  obtain ⟨hall1, hany1⟩ := h1
  obtain ⟨hall2, hany2⟩ := h2
  refine ⟨fun idx hidx => le_trans (hall1 idx hidx) (hall2 idx hidx), ?_⟩
  obtain ⟨idx, hidx, hlt⟩ := hany1
  exact ⟨idx, hidx, lt_of_lt_of_le hlt (hall2 idx hidx)⟩

theorem range_split (n k : ℕ) (h : k < n) :
    List.range n = List.range k ++ k :: List.range' (k+1) (n - (k+1)) := by
  have h2 : List.range' k (n - k) 1 = k :: List.range' (k+1) (n - (k+1)) := by
    rw [show n - k = (n - (k+1)) + 1 by omega, List.range'_succ]
  have h1 : List.range k ++ List.range' k (n - k) 1 = List.range n := by
    have h3 := List.range'_append 0 k (n - k) 1
    rw [show 0 + 1 * k = k by omega] at h3
    rw [List.range_eq_range' k, h3, ← List.range_eq_range',
      show n - k + k = n by omega]
  rw [← h1, h2]

theorem dominationSet_eq (scores : List (List ℚ)) (k : ℕ)
    (hk : k < scores.length) :
    dominationSet scores k =
      (List.range scores.length).filter
        (fun m => decide (Dominates scores k m)) := by
  have hpiece1 : (List.range k).filter
      (fun m => decide (determine_dominance (row scores m) (row scores k) = -1))
      = (List.range k).filter (fun m => decide (Dominates scores k m)) :=
    List.filter_congr (fun m _ => by
      simp only [decide_eq_decide]
      rw [dd_negone_iff_rev]
      exact Iff.rfl)
  have hpiece2 : (List.range' (k+1) (scores.length - (k+1))).filter
      (fun m => decide (determine_dominance (row scores k) (row scores m) = 1))
      = (List.range' (k+1) (scores.length - (k+1))).filter
        (fun m => decide (Dominates scores k m)) :=
    List.filter_congr (fun m _ => by
      simp only [decide_eq_decide]
      exact Iff.rfl)
  unfold dominationSet
  rw [hpiece1, hpiece2, range_split scores.length k hk, List.filter_append,
    List.filter_cons_of_neg (by simp [Dominates_irrefl scores k])]

theorem dominatedCount_eq (scores : List (List ℚ)) (k : ℕ)
    (hk : k < scores.length) :
    (dominatedCount scores k : ℕ) =
      (List.range scores.length).countP
        (fun m => decide (Dominates scores m k)) := by
  have hpiece1 : (List.range k).filter
      (fun m => decide (determine_dominance (row scores m) (row scores k) = 1))
      = (List.range k).filter (fun m => decide (Dominates scores m k)) :=
    List.filter_congr (fun m _ => by
      simp only [decide_eq_decide]
      exact Iff.rfl)
  have hpiece2 : (List.range' (k+1) (scores.length - (k+1))).filter
      (fun m => decide (determine_dominance (row scores k) (row scores m) = -1))
      = (List.range' (k+1) (scores.length - (k+1))).filter
        (fun m => decide (Dominates scores m k)) :=
    List.filter_congr (fun m _ => by
      simp only [decide_eq_decide]
      rw [dd_negone_iff_rev]
      exact Iff.rfl)
  unfold dominatedCount
  rw [hpiece1, hpiece2, List.countP_eq_length_filter,
    range_split scores.length k hk, List.filter_append,
    List.filter_cons_of_neg (by simp [Dominates_irrefl scores k]),
    List.length_append]

theorem mem_dominationSet (scores : List (List ℚ)) (k : ℕ)
    (hk : k < scores.length) {j : ℕ} :
    j ∈ dominationSet scores k ↔ (j < scores.length ∧ Dominates scores k j) := by
  rw [dominationSet_eq scores k hk, List.mem_filter, List.mem_range]
  simp

theorem dominationSet_nodup (scores : List (List ℚ)) (k : ℕ)
    (hk : k < scores.length) : (dominationSet scores k).Nodup := by
  rw [dominationSet_eq scores k hk]
  exact (List.nodup_range _).filter _

theorem getD_map_range {α : Type} (f : ℕ → α) (n i : ℕ) (d : α) (h : i < n) :
    ((List.range n).map f).getD i d = f i := by
  rw [List.getD_eq_getElem _ _ (by simpa using h)]
  simp

/-! ### peelStep characterization -/

theorem dec_fold_char :
    ∀ (S : List ℕ) (cn : List Int × List ℕ), S.Nodup →
      (∀ j ∈ S, j < cn.1.length) →
      ((S.foldl decBody cn).1.length = cn.1.length) ∧
      (∀ j, (S.foldl decBody cn).1.getD j 0 =
        if j ∈ S then cn.1.getD j 0 - 1 else cn.1.getD j 0) ∧
      ((S.foldl decBody cn).2 =
        cn.2 ++ S.filter (fun j => decide (cn.1.getD j 0 = 1)))
  | [], cn, _, _ => ⟨rfl, fun j => by simp, by simp⟩
  | j0 :: S, cn, hnd, hlt => by
    have hj0 : j0 < cn.1.length := hlt j0 (List.mem_cons_self _ _)
    have hj0nmem : j0 ∉ S := (List.nodup_cons.mp hnd).1
    have hfst : (decBody cn j0).1 = cn.1.set j0 (cn.1.getD j0 0 - 1) := rfl
    have hsnd : (decBody cn j0).2 =
        if cn.1.getD j0 0 - 1 = 0 then cn.2 ++ [j0] else cn.2 := rfl
    have ih := dec_fold_char S (decBody cn j0) (List.nodup_cons.mp hnd).2
      (fun j hj => by
        rw [hfst, List.length_set]
        exact hlt j (List.mem_cons_of_mem _ hj))
    rw [List.foldl_cons]
    refine ⟨by rw [ih.1, hfst, List.length_set], fun j => ?_, ?_⟩
    · rw [ih.2.1 j, hfst]
      by_cases hjS : j ∈ S
      · have hjne : j ≠ j0 := fun hc => hj0nmem (hc ▸ hjS)
        rw [if_pos hjS, if_pos (List.mem_cons_of_mem _ hjS),
          getD_set_neq _ _ _ _ _ (fun hc => hjne hc.symm)]
      · rw [if_neg hjS]
        by_cases hjj0 : j = j0
        · subst hjj0
          rw [if_pos (List.mem_cons_self _ _), getD_set_eq _ _ _ _ hj0]
        · rw [if_neg (by
            intro hc
            rcases List.mem_cons.mp hc with hc | hc
            · exact hjj0 hc
            · exact hjS hc),
            getD_set_neq _ _ _ _ _ (fun hc => hjj0 hc.symm)]
    · rw [ih.2.2, hfst, hsnd]
      have hfilter : S.filter
          (fun j => decide ((cn.1.set j0 (cn.1.getD j0 0 - 1)).getD j 0 = 1))
          = S.filter (fun j => decide (cn.1.getD j 0 = 1)) :=
        List.filter_congr (fun j hj => by
          rw [getD_set_neq _ _ _ _ _ (fun hc => hj0nmem (by
            rw [hc]
            exact hj))])
      rw [hfilter, List.filter_cons]
      by_cases hc1 : cn.1.getD j0 0 = 1
      · rw [if_pos (by omega), if_pos (by simpa using hc1)]
        simp
      · rw [if_neg (by omega), if_neg (by simpa using hc1)]

theorem peelStep_fold_char (sets : List (List ℕ)) :
    ∀ (current : List ℕ) (cn : List Int × List ℕ),
      (∀ i ∈ current, (sets.getD i []).Nodup) →
      (∀ i ∈ current, ∀ j ∈ sets.getD i [], j < cn.1.length) →
      (∀ j, (current.countP (fun i => decide (j ∈ sets.getD i [])) : Int)
        ≤ cn.1.getD j 0) →
      ∃ NEW : List ℕ,
        ((current.foldl (fun cn i => (sets.getD i []).foldl decBody cn)
          cn).1.length = cn.1.length) ∧
        (∀ j, (current.foldl (fun cn i => (sets.getD i []).foldl decBody cn)
          cn).1.getD j 0 = cn.1.getD j 0 -
            (current.countP (fun i => decide (j ∈ sets.getD i [])) : Int)) ∧
        ((current.foldl (fun cn i => (sets.getD i []).foldl decBody cn)
          cn).2 = cn.2 ++ NEW) ∧
        (∀ j, j ∈ NEW ↔
          (cn.1.getD j 0 =
            (current.countP (fun i => decide (j ∈ sets.getD i [])) : Int)
            ∧ 1 ≤ current.countP (fun i => decide (j ∈ sets.getD i [])))) ∧
        NEW.Nodup
  | [], cn, _, _, _ =>
    ⟨[], rfl, fun j => by simp, by simp, fun j => by simp, List.nodup_nil⟩
  | i0 :: rest, cn, hnd, hlt, hcnt => by
    have hS0nd : (sets.getD i0 []).Nodup := hnd i0 (List.mem_cons_self _ _)
    have hS0lt : ∀ j ∈ sets.getD i0 [], j < cn.1.length :=
      hlt i0 (List.mem_cons_self _ _)
    have hinner := dec_fold_char (sets.getD i0 []) cn hS0nd hS0lt
    have hcnt0 : ∀ j, j ∈ sets.getD i0 [] →
        (rest.countP (fun i => decide (j ∈ sets.getD i [])) : Int) + 1
          ≤ cn.1.getD j 0 := by
      intro j hj
      have := hcnt j
      rw [List.countP_cons, if_pos (by simpa using hj)] at this
      omega
    have hcntrest : ∀ j,
        (rest.countP (fun i => decide (j ∈ sets.getD i [])) : Int)
          ≤ ((sets.getD i0 []).foldl decBody cn).1.getD j 0 := by
      intro j
      rw [hinner.2.1 j]
      by_cases hjS : j ∈ sets.getD i0 []
      · rw [if_pos hjS]
        have := hcnt0 j hjS
        omega
      · rw [if_neg hjS]
        have := hcnt j
        rw [List.countP_cons, if_neg (by simpa using hjS)] at this
        omega
    obtain ⟨NEW', h1, h2, h3, h4, h5⟩ := peelStep_fold_char sets rest
      ((sets.getD i0 []).foldl decBody cn)
      (fun i hi => hnd i (List.mem_cons_of_mem _ hi))
      (fun i hi j hj => by
        rw [hinner.1]
        exact hlt i (List.mem_cons_of_mem _ hi) j hj)
      hcntrest
    refine ⟨(sets.getD i0 []).filter (fun j => decide (cn.1.getD j 0 = 1))
      ++ NEW', ?_, fun j => ?_, ?_, fun j => ?_, ?_⟩
    · rw [List.foldl_cons, h1, hinner.1]
    · rw [List.foldl_cons, h2 j, hinner.2.1 j, List.countP_cons]
      by_cases hjS : j ∈ sets.getD i0 []
      · rw [if_pos hjS, if_pos (decide_eq_true hjS)]
        omega
      · rw [if_neg hjS, if_neg (by simpa only [decide_eq_true_eq] using hjS)]
        omega
    · rw [List.foldl_cons, h3, hinner.2.2, List.append_assoc]
    · rw [List.mem_append, h4 j, List.mem_filter, hinner.2.1 j,
        List.countP_cons]
      by_cases hjS : j ∈ sets.getD i0 []
      · rw [if_pos hjS, if_pos (decide_eq_true hjS)]
        have hb := hcnt0 j hjS
        simp only [hjS, true_and, decide_eq_true_eq]
        omega
      · rw [if_neg hjS, if_neg (by simpa only [decide_eq_true_eq] using hjS)]
        simp only [hjS, false_and, false_or, decide_eq_true_eq]
        omega
    · rw [List.nodup_append]
      refine ⟨hS0nd.filter _, h5, ?_⟩
      intro j hjA hjN
      rw [List.mem_filter] at hjA
      have hc1 : cn.1.getD j 0 = 1 := by simpa using hjA.2
      have := hcnt0 j hjA.1
      have hN := (h4 j).mp hjN
      rw [hinner.2.1 j, if_pos hjA.1] at hN
      omega

theorem crowding_of_front_char (fs : List (List ℚ)) (n_obj p : ℕ)
    (hn : 2 < fs.length) (hp : p < fs.length) :
    (crowding_of_front fs n_obj).getD p 0 = crowdingSpecAt fs n_obj p := by
  unfold crowding_of_front crowdingSpecAt
  rw [if_neg (by omega)]
  rw [crowd_fold_char fs (by omega) p hp (List.range n_obj)
      (List.replicate fs.length 0) (List.length_replicate _ _)]
  have hrep : (List.replicate fs.length (0 : WithTop ℚ)).getD p 0 = 0 := by
    rw [List.getD_eq_getElem?_getD]
    simp [List.getElem?_replicate, hp]
  by_cases hex : ∃ m ∈ List.range n_obj, nzRange fs m ∧ boundarySlot fs m p
  · rw [if_pos hex, if_pos (by
      rw [List.any_eq_true]
      obtain ⟨m, hm, h1, h2⟩ := hex
      exact ⟨m, hm, by simp [h1, h2]⟩)]
  · rw [if_neg hex, if_neg (by
      rw [List.any_eq_true]
      rintro ⟨m, hm, hmp⟩
      simp only [Bool.and_eq_true, decide_eq_true_eq] at hmp
      exact hex ⟨m, hm, hmp⟩), hrep, zero_add]

/-! ### Helper lemmas for the peeling invariant -/

theorem foldl_set_length (v : ℕ) :
    ∀ (current : List ℕ) (r : List ℕ),
      (current.foldl (fun r i => r.set i v) r).length = r.length
  | [], _ => rfl
  | i :: current, r => by
    rw [List.foldl_cons, foldl_set_length v current, List.length_set]

theorem foldl_set_getD (v : ℕ) :
    ∀ (current : List ℕ) (r : List ℕ) (j : ℕ),
      (current.foldl (fun r i => r.set i v) r).getD j 0 =
        if j ∈ current ∧ j < r.length then v else r.getD j 0
  | [], r, j => by simp
  | i :: current, r, j => by
    rw [List.foldl_cons, foldl_set_getD v current (r.set i v) j,
      List.length_set]
    by_cases hmem : j ∈ current ∧ j < r.length
    · rw [if_pos hmem, if_pos ⟨List.mem_cons_of_mem _ hmem.1, hmem.2⟩]
    · rw [if_neg hmem]
      by_cases hij : j = i
      · subst hij
        by_cases hlen : j < r.length
        · rw [if_pos ⟨List.mem_cons_self _ _, hlen⟩, getD_set_eq _ _ _ _ hlen]
        · rw [if_neg (fun hc => hlen hc.2),
            List.set_eq_of_length_le (by omega)]
      · rw [getD_set_neq _ _ _ _ _ (fun hc => hij hc.symm), if_neg (by
          rintro ⟨hc1, hc2⟩
          rcases List.mem_cons.mp hc1 with hc | hc
          · exact hij hc
          · exact hmem ⟨hc, hc2⟩)]

theorem countP_or_disjoint {α : Type} (p q : α → Bool) :
    ∀ (l : List α), (∀ a ∈ l, ¬(p a = true ∧ q a = true)) →
      l.countP (fun a => p a || q a) = l.countP p + l.countP q
  | [], _ => rfl
  | a :: l, h => by
    rw [List.countP_cons, List.countP_cons, List.countP_cons,
      countP_or_disjoint p q l (fun b hb => h b (List.mem_cons_of_mem _ hb))]
    have hna := h a (List.mem_cons_self _ _)
    by_cases hp : p a = true
    · by_cases hq : q a = true
      · exact absurd ⟨hp, hq⟩ hna
      · rw [if_pos (by simp [hp]), if_pos hp, if_neg hq]
        omega
    · by_cases hq : q a = true
      · rw [if_pos (by simp [hq]), if_neg hp, if_pos hq]
        omega
      · rw [if_neg (by simp [hp, hq]), if_neg hp, if_neg hq]
        omega

theorem countP_range_mem (current : List ℕ) (n : ℕ) (hnd : current.Nodup)
    (hlt : ∀ i ∈ current, i < n) (p : ℕ → Bool) :
    (List.range n).countP (fun i => decide (i ∈ current) && p i) =
      current.countP p := by
  have hperm : ((List.range n).filter (fun i => decide (i ∈ current))).Perm
      current := by
    rw [List.perm_ext_iff_of_nodup ((List.nodup_range n).filter _) hnd]
    intro a
    rw [List.mem_filter, List.mem_range]
    simp only [decide_eq_true_eq]
    exact ⟨fun h => h.2, fun h => ⟨hlt a h, h⟩⟩
  have h1 : List.countP p ((List.range n).filter (fun i => decide (i ∈ current)))
      = (List.range n).countP (fun i => p i && decide (i ∈ current)) :=
    List.countP_filter _ _ _
  have h2 : (List.range n).countP (fun i => decide (i ∈ current) && p i) =
      (List.range n).countP (fun i => p i && decide (i ∈ current)) :=
    List.countP_congr (fun x _ => by
      rw [Bool.and_comm])
  rw [h2, ← h1]
  exact hperm.countP_eq p

theorem countP_strict_mono {α : Type} (p q : α → Bool) :
    ∀ (l : List α), (∀ a ∈ l, p a = true → q a = true) →
      (∃ a ∈ l, q a = true ∧ ¬p a = true) →
      l.countP p < l.countP q
  | [], _, hex => by
    obtain ⟨a, ha, _⟩ := hex
    exact absurd ha (List.not_mem_nil a)
  | a :: l, hmono, hex => by
    rw [List.countP_cons, List.countP_cons]
    obtain ⟨b, hb, hbq, hbp⟩ := hex
    rcases List.mem_cons.mp hb with rfl | hbl
    · rw [if_neg hbp, if_pos hbq]
      have hle : l.countP p ≤ l.countP q :=
        List.countP_mono_left (fun x hx => hmono x (List.mem_cons_of_mem _ hx))
      omega
    · have hlt := countP_strict_mono p q l
        (fun x hx => hmono x (List.mem_cons_of_mem _ hx)) ⟨b, hbl, hbq, hbp⟩
      have hif : (if p a = true then 1 else 0) ≤
          (if q a = true then 1 else 0) := by
        by_cases hp : p a = true
        · rw [if_pos hp, if_pos (hmono a (List.mem_cons_self _ _) hp)]
        · rw [if_neg hp]
          by_cases hq : q a = true
          · rw [if_pos hq]
            omega
          · rw [if_neg hq]
      omega

theorem countP_and_eq_forall {α : Type} (p q : α → Bool) (l : List α)
    (heq : l.countP (fun a => q a && p a) = l.countP p) :
    ∀ a ∈ l, p a = true → q a = true := by
  intro a ha hp
  by_contra hq
  have hlt := countP_strict_mono (fun a => q a && p a) p l
    (fun x _ hx => ((Bool.and_eq_true _ _).mp hx).2) ⟨a, ha, hp, by simp [hq]⟩
  omega

theorem rankedDominators_replicate (scores : List (List ℚ)) (n j : ℕ) :
    rankedDominators scores (List.replicate n 0) j = 0 := by
  unfold rankedDominators
  rw [List.countP_eq_zero]
  intro i _
  simp only [Bool.and_eq_true, decide_eq_true_eq, not_and]
  intro hc
  exfalso
  apply hc
  rw [List.getD_eq_getElem?_getD]
  rcases List.getElem?_replicate (a := (0 : ℕ)) (n := n) (m := i) with _
  by_cases hi : i < n
  · simp [List.getElem?_replicate, hi]
  · simp [List.getElem?_replicate, hi]

theorem rankedDominators_after (scores : List (List ℚ)) (ranks : List ℕ)
    (current : List ℕ) (frontNum : ℕ) (hfn : 1 ≤ frontNum)
    (hnd : current.Nodup) (hlt : ∀ i ∈ current, i < scores.length)
    (hunr : ∀ i ∈ current, ranks.getD i 0 = 0)
    (hlen : ranks.length = scores.length) (j : ℕ) :
    rankedDominators scores (current.foldl (fun r i => r.set i frontNum) ranks) j
      = rankedDominators scores ranks j +
        current.countP (fun i => decide (Dominates scores i j)) := by
  unfold rankedDominators
  have hchar : ∀ i < scores.length,
      ((current.foldl (fun r i => r.set i frontNum) ranks).getD i 0 ≠ 0 ↔
        (ranks.getD i 0 ≠ 0 ∨ i ∈ current)) := by
    intro i hi
    rw [foldl_set_getD]
    by_cases hmem : i ∈ current ∧ i < ranks.length
    · rw [if_pos hmem]
      constructor
      · intro _
        exact Or.inr hmem.1
      · intro _
        omega
    · rw [if_neg hmem]
      constructor
      · exact Or.inl
      · rintro (h | h)
        · exact h
        · exact absurd ⟨h, by omega⟩ hmem
  rw [List.countP_congr (q := fun i =>
      (decide (ranks.getD i 0 ≠ 0) && decide (Dominates scores i j)) ||
        (decide (i ∈ current) && decide (Dominates scores i j)))
    (fun i hi => by
      rw [List.mem_range] at hi
      simp only [Bool.and_eq_true, Bool.or_eq_true, decide_eq_true_eq]
      rw [hchar i hi]
      tauto),
    countP_or_disjoint (fun i => decide (ranks.getD i 0 ≠ 0) &&
        decide (Dominates scores i j))
      (fun i => decide (i ∈ current) && decide (Dominates scores i j))
      (List.range scores.length)
      (fun i _ => by
        simp only [Bool.and_eq_true, decide_eq_true_eq]
        rintro ⟨⟨hr, _⟩, ⟨hm, _⟩⟩
        exact hr (hunr i hm)),
    countP_range_mem current scores.length hnd hlt]

theorem exists_undominated (scores : List (List ℚ)) (L : ℕ)
    (hrect : Rect scores L) :
    ∀ (len : ℕ) (S : List ℕ), S.length ≤ len → S ≠ [] →
      (∀ j ∈ S, j < scores.length) →
      ∃ j, j ∈ S ∧ ∀ i ∈ S, ¬Dominates scores i j := by
  intro len
  induction len with
  | zero =>
      intro S hlen hne _
      cases S with
      | nil => exact absurd rfl hne
      | cons a l => simp at hlen
  | succ k ih =>
      intro S hlen hne hlt
      obtain ⟨x, S', rfl⟩ : ∃ x S', S = x :: S' := by
        cases S with
        | nil => exact absurd rfl hne
        | cons a l => exact ⟨a, l, rfl⟩
      by_cases hT : S'.filter (fun i => decide (Dominates scores i x)) = []
      · refine ⟨x, List.mem_cons_self _ _, ?_⟩
        intro i hi hdom
        rcases List.mem_cons.mp hi with rfl | hi2
        · exact Dominates_irrefl scores i hdom
        · have hmem : i ∈ S'.filter (fun i => decide (Dominates scores i x)) := by
            rw [List.mem_filter]
            exact ⟨hi2, by simpa using hdom⟩
          rw [hT] at hmem
          exact absurd hmem (List.not_mem_nil i)
      · have hTlen : (S'.filter (fun i => decide (Dominates scores i x))).length
            ≤ k := by
          have h1 := List.length_filter_le
            (fun i => decide (Dominates scores i x)) S'
          simp only [List.length_cons] at hlen
          omega
        have hTlt : ∀ j ∈ S'.filter (fun i => decide (Dominates scores i x)),
            j < scores.length := fun j hj =>
          hlt j (List.mem_cons_of_mem _ (List.mem_filter.mp hj).1)
        obtain ⟨j, hjmem, hjmin⟩ := ih
          (S'.filter (fun i => decide (Dominates scores i x))) hTlen hT hTlt
        have hjx : Dominates scores j x := by
          have hj2 := (List.mem_filter.mp hjmem).2
          simpa using hj2
        refine ⟨j, List.mem_cons_of_mem _ (List.mem_filter.mp hjmem).1, ?_⟩
        intro i hi hdom
        have hix : Dominates scores i x := Dominates_trans hrect
          (hlt i hi) (hlt j (List.mem_cons_of_mem _ (List.mem_filter.mp hjmem).1))
          (hlt x (List.mem_cons_self _ _)) hdom hjx
        have hiS' : i ∈ S' := by
          rcases List.mem_cons.mp hi with rfl | h
          · exact absurd hix (Dominates_irrefl scores i)
          · exact h
        exact hjmin i (by
          rw [List.mem_filter]
          exact ⟨hiS', by simpa using hix⟩) hdom

theorem getD_of_length_le {α : Type} {l : List α} {n : ℕ}
    (h : l.length ≤ n) (d : α) : l.getD n d = d := by
  rw [List.getD_eq_getElem?_getD, List.getElem?_eq_none h]
  rfl

theorem peelStep_char (sets : List (List ℕ)) (current : List ℕ)
    (counts : List Int)
    (hnd : ∀ i ∈ current, (sets.getD i []).Nodup)
    (hlt : ∀ i ∈ current, ∀ j ∈ sets.getD i [], j < counts.length)
    (hcnt : ∀ j, (current.countP (fun i => decide (j ∈ sets.getD i [])) : Int)
      ≤ counts.getD j 0) :
    (peelStep sets current counts).1.length = counts.length ∧
    (∀ j, (peelStep sets current counts).1.getD j 0 = counts.getD j 0 -
      (current.countP (fun i => decide (j ∈ sets.getD i [])) : Int)) ∧
    (∀ j, j ∈ (peelStep sets current counts).2 ↔
      (counts.getD j 0 =
        (current.countP (fun i => decide (j ∈ sets.getD i [])) : Int)
        ∧ 1 ≤ current.countP (fun i => decide (j ∈ sets.getD i [])))) ∧
    (peelStep sets current counts).2.Nodup := by
  obtain ⟨NEW, h1, h2, h3, h4, h5⟩ := peelStep_fold_char sets current
    (counts, ([] : List ℕ)) hnd hlt hcnt
  have he2 : (peelStep sets current counts).2 = NEW := by
    have hfold : (peelStep sets current counts).2 = ([] : List ℕ) ++ NEW := h3
    simpa using hfold
  exact ⟨h1, h2, fun j => by
    rw [he2]
    exact h4 j, by
    rw [he2]
    exact h5⟩

theorem ranked_plus_current_le (scores : List (List ℚ)) (ranks : List ℕ)
    (current : List ℕ) (hnd : current.Nodup)
    (hlt : ∀ i ∈ current, i < scores.length)
    (hunr : ∀ i ∈ current, ranks.getD i 0 = 0) (j : ℕ)
    (hj : j < scores.length) :
    rankedDominators scores ranks j +
      current.countP (fun i => decide (Dominates scores i j))
      ≤ dominatedCount scores j := by
  rw [dominatedCount_eq scores j hj,
    ← countP_range_mem current scores.length hnd hlt
      (fun i => decide (Dominates scores i j))]
  unfold rankedDominators
  rw [← countP_or_disjoint
    (fun i => decide (ranks.getD i 0 ≠ 0) && decide (Dominates scores i j))
    (fun i => decide (i ∈ current) && decide (Dominates scores i j))
    (List.range scores.length)
    (fun i _ => by
      simp only [Bool.and_eq_true, decide_eq_true_eq]
      rintro ⟨⟨hr, _⟩, ⟨hm, _⟩⟩
      exact hr (hunr i hm))]
  exact List.countP_mono_left (fun x _ hx => by
    simp only [Bool.or_eq_true, Bool.and_eq_true] at hx
    rcases hx with ⟨_, h⟩ | ⟨_, h⟩ <;> exact h)

/-- One iteration of the peeling while-loop preserves the invariant. -/
theorem peel_inv_step (scores : List (List ℚ)) (counts : List Int)
    (current : List ℕ) (frontNum : ℕ) (ranks : List ℕ)
    (fronts : List (List ℕ))
    (hinv : PeelInv scores counts current frontNum ranks fronts)
    (hcur : current ≠ []) :
    PeelInv scores (peelStep (ndsSets scores) current counts).1
      (peelStep (ndsSets scores) current counts).2 (frontNum + 1)
      (current.foldl (fun r i => r.set i frontNum) ranks)
      (fronts ++ [current]) := by
  obtain ⟨hlen, hclen, hceq, hndc, hclt, hcunr, hczero, hpend, hrlt, hratt,
    hfpos, hr1, hrc, hflen, hfmem, hfnd⟩ := hinv
  have hsets : ∀ i ∈ current, (ndsSets scores).getD i [] =
      dominationSet scores i := fun i hi =>
    getD_map_range _ _ _ _ (hclt i hi)
  have hmemS : ∀ i ∈ current, ∀ j : ℕ,
      (j ∈ (ndsSets scores).getD i [] ↔
        (j < scores.length ∧ Dominates scores i j)) := fun i hi j => by
    rw [hsets i hi]
    exact mem_dominationSet scores i (hclt i hi)
  have hndS : ∀ i ∈ current, ((ndsSets scores).getD i []).Nodup := fun i hi => by
    rw [hsets i hi]
    exact dominationSet_nodup scores i (hclt i hi)
  have hltS : ∀ i ∈ current, ∀ j ∈ (ndsSets scores).getD i [],
      j < counts.length := fun i hi j hj => by
    rw [hclen]
    exact ((hmemS i hi j).mp hj).1
  have hcpe : ∀ j, j < scores.length →
      current.countP (fun i => decide (j ∈ (ndsSets scores).getD i [])) =
        current.countP (fun i => decide (Dominates scores i j)) := fun j hj =>
    List.countP_congr (fun i hi => by
      simp only [decide_eq_true_eq]
      rw [hmemS i hi j]
      exact ⟨fun h => h.2, fun h => ⟨hj, h⟩⟩)
  have hcpe0 : ∀ j, scores.length ≤ j →
      current.countP (fun i => decide (j ∈ (ndsSets scores).getD i [])) = 0 :=
    fun j hj => by
      rw [List.countP_eq_zero]
      intro i hi
      simp only [decide_eq_true_eq]
      intro hc
      have := ((hmemS i hi j).mp hc).1
      omega
  have hcnt : ∀ j,
      (current.countP (fun i => decide (j ∈ (ndsSets scores).getD i [])) : Int)
        ≤ counts.getD j 0 := by
    intro j
    by_cases hj : j < scores.length
    · rw [hcpe j hj, hceq j hj]
      have hle := ranked_plus_current_le scores ranks current hndc hclt hcunr j hj
      omega
    · rw [hcpe0 j (by omega), getD_of_length_le (by omega) 0]
      simp
  have hstep := peelStep_char (ndsSets scores) current counts hndS hltS hcnt
  have hr'getD : ∀ j, (current.foldl (fun r i => r.set i frontNum) ranks).getD j 0
      = if j ∈ current ∧ j < ranks.length then frontNum
        else ranks.getD j 0 := fun j => foldl_set_getD frontNum current ranks j
  have hr'cur : ∀ j ∈ current,
      (current.foldl (fun r i => r.set i frontNum) ranks).getD j 0 = frontNum :=
    fun j hj => by
      rw [hr'getD j, if_pos ⟨hj, by rw [hlen]; exact hclt j hj⟩]
  have hr'ncur : ∀ j, j ∉ current →
      (current.foldl (fun r i => r.set i frontNum) ranks).getD j 0 =
        ranks.getD j 0 := fun j hj => by
    rw [hr'getD j, if_neg (fun hc => hj hc.1)]
  have hnext_cp : ∀ j ∈ (peelStep (ndsSets scores) current counts).2,
      1 ≤ current.countP (fun i => decide (j ∈ (ndsSets scores).getD i [])) :=
    fun j hj => ((hstep.2.2.1 j).mp hj).2
  have hnext_lt : ∀ j ∈ (peelStep (ndsSets scores) current counts).2,
      j < scores.length := by
    intro j hj
    have h1 := hnext_cp j hj
    have h2 : 0 < current.countP
        (fun i => decide (j ∈ (ndsSets scores).getD i [])) := by omega
    obtain ⟨i, hi, hdec⟩ := List.countP_pos.mp h2
    exact ((hmemS i hi j).mp (by simpa using hdec)).1
  have hnext_dom : ∀ j ∈ (peelStep (ndsSets scores) current counts).2,
      ∃ i ∈ current, Dominates scores i j := by
    intro j hj
    have h1 := hnext_cp j hj
    have h2 : 0 < current.countP
        (fun i => decide (j ∈ (ndsSets scores).getD i [])) := by omega
    obtain ⟨i, hi, hdec⟩ := List.countP_pos.mp h2
    exact ⟨i, hi, ((hmemS i hi j).mp (by simpa using hdec)).2⟩
  have hnext_ncur : ∀ j ∈ (peelStep (ndsSets scores) current counts).2,
      j ∉ current := by
    intro j hj hjc
    have h1 := ((hstep.2.2.1 j).mp hj).1
    have h2 := ((hstep.2.2.1 j).mp hj).2
    have h3 := hczero j hjc
    omega
  have hnext_unr : ∀ j ∈ (peelStep (ndsSets scores) current counts).2,
      ranks.getD j 0 = 0 := by
    intro j hj
    by_contra hr
    obtain ⟨i, hi, hdom⟩ := hnext_dom j hj
    exact (hrc j (hnext_lt j hj) hr i (hclt i hi) hdom) (hcunr i hi)
  have hrD0 : frontNum = 1 → ∀ j, rankedDominators scores ranks j = 0 := by
    intro hf1 j
    unfold rankedDominators
    rw [List.countP_eq_zero]
    intro i _
    simp only [Bool.and_eq_true, decide_eq_true_eq]
    rintro ⟨hr, _⟩
    have := hrlt i
    omega
  refine ⟨?_, ?_, ?_, hstep.2.2.2, hnext_lt, ?_, ?_, ?_, ?_, ?_, by omega,
    ?_, ?_, ?_, ?_, ?_⟩
  · rw [foldl_set_length, hlen]
  · rw [hstep.1, hclen]
  · intro j hj
    rw [hstep.2.1 j, hceq j hj, hcpe j hj,
      rankedDominators_after scores ranks current frontNum hfpos hndc hclt
        hcunr hlen j]
    push_cast
    ring
  · intro j hj
    rw [hr'getD j, if_neg (fun hc => hnext_ncur j hj hc.1)]
    exact hnext_unr j hj
  · intro j hj
    rw [hstep.2.1 j]
    have h1 := ((hstep.2.2.1 j).mp hj).1
    omega
  · intro j hj hr0 hjn
    have hjc : j ∉ current := by
      intro hc
      rw [hr'cur j hc] at hr0
      omega
    rw [hr'ncur j hjc] at hr0
    have hp := hpend j hj hr0 hjc
    have hc2 := hcnt j
    have hnn : ¬(counts.getD j 0 =
        (current.countP (fun i => decide (j ∈ (ndsSets scores).getD i [])) : Int)
        ∧ 1 ≤ current.countP (fun i => decide (j ∈ (ndsSets scores).getD i []))) :=
      fun hc => hjn ((hstep.2.2.1 j).mpr hc)
    rw [hstep.2.1 j]
    by_cases hz : current.countP
        (fun i => decide (j ∈ (ndsSets scores).getD i [])) = 0
    · rw [hz]
      omega
    · have : counts.getD j 0 ≠
          (current.countP (fun i => decide (j ∈ (ndsSets scores).getD i [])) : Int)
          := fun hc => hnn ⟨hc, by omega⟩
      omega
  · intro j
    rw [hr'getD j]
    by_cases hm : j ∈ current ∧ j < ranks.length
    · rw [if_pos hm]
      omega
    · rw [if_neg hm]
      have := hrlt j
      omega
  · intro r hr1' hr2
    by_cases hrf : r = frontNum
    · subst hrf
      obtain ⟨i, hi⟩ := List.exists_mem_of_ne_nil current hcur
      exact ⟨i, hclt i hi, hr'cur i hi⟩
    · obtain ⟨j, hj, hjr⟩ := hratt r hr1' (by omega)
      refine ⟨j, hj, ?_⟩
      have hjc : j ∉ current := fun hc => by
        have := hcunr j hc
        omega
      rw [hr'ncur j hjc]
      exact hjr
  · intro j hj
    have h2le : (2 : ℕ) ≤ frontNum + 1 := by omega
    by_cases hjc : j ∈ current
    · rw [hr'cur j hjc]
      by_cases hf1 : frontNum = 1
      · subst hf1
        have hz := hczero j hjc
        rw [hceq j hj, hrD0 rfl j] at hz
        constructor
        · intro _
          constructor
          · omega
          · omega
        · intro _
          rfl
      · constructor
        · intro hc
          omega
        · rintro ⟨_, hc0⟩
          have := hr1 j hj
          have hj1 : ranks.getD j 0 = 1 := this.mpr ⟨by omega, hc0⟩
          have := hcunr j hjc
          omega
    · rw [hr'ncur j hjc]
      rw [hr1 j hj]
      by_cases hf1 : frontNum = 1
      · subst hf1
        constructor
        · rintro ⟨hc, _⟩
          omega
        · rintro ⟨_, hc0⟩
          exfalso
          have hur : ranks.getD j 0 = 0 := by
            have := hrlt j
            omega
          have hp := hpend j hj hur hjc
          rw [hceq j hj, hrD0 rfl j] at hp
          omega
      · constructor
        · rintro ⟨_, hc0⟩
          exact ⟨by omega, hc0⟩
        · rintro ⟨_, hc0⟩
          exact ⟨by omega, hc0⟩
  · intro j hj hjr i hi hdom
    by_cases hjc : j ∈ current
    · have hz := hczero j hjc
      rw [hceq j hj] at hz
      have heq : dominatedCount scores j = rankedDominators scores ranks j := by
        omega
      have heq2 : (List.range scores.length).countP
          (fun a => decide (ranks.getD a 0 ≠ 0) && decide (Dominates scores a j))
          = (List.range scores.length).countP
            (fun a => decide (Dominates scores a j)) := by
        unfold rankedDominators at heq
        rw [← dominatedCount_eq scores j hj]
        omega
      have hall := countP_and_eq_forall
        (fun i => decide (Dominates scores i j))
        (fun i => decide (ranks.getD i 0 ≠ 0))
        (List.range scores.length) heq2
      have hri : ranks.getD i 0 ≠ 0 := by
        have := hall i (by
          rw [List.mem_range]
          exact hi) (by simpa using hdom)
        simpa using this
      by_cases hic : i ∈ current
      · rw [hr'cur i hic]
        omega
      · rw [hr'ncur i hic]
        exact hri
    · rw [hr'ncur j hjc] at hjr
      have hri := hrc j hj hjr i hi hdom
      by_cases hic : i ∈ current
      · rw [hr'cur i hic]
        omega
      · rw [hr'ncur i hic]
        exact hri
  · rw [List.length_append]
    simp only [List.length_cons, List.length_nil]
    omega
  · intro fi hfi j
    rw [List.length_append, List.length_cons, List.length_nil] at hfi
    by_cases hlt2 : fi < fronts.length
    · rw [List.getD_append _ _ _ _ hlt2, hfmem fi hlt2 j]
      constructor
      · rintro ⟨hjn, hjr⟩
        refine ⟨hjn, ?_⟩
        have hjc : j ∉ current := fun hc => by
          have := hcunr j hc
          omega
        rw [hr'ncur j hjc]
        exact hjr
      · rintro ⟨hjn, hjr⟩
        refine ⟨hjn, ?_⟩
        by_cases hjc : j ∈ current
        · rw [hr'cur j hjc] at hjr
          omega
        · rw [hr'ncur j hjc] at hjr
          exact hjr
    · have hfi_eq : fi = fronts.length := by omega
      subst hfi_eq
      rw [List.getD_append_right _ _ _ _ (le_refl _)]
      simp only [Nat.sub_self]
      constructor
      · intro hjc
        have hjc2 : j ∈ current := by simpa using hjc
        refine ⟨hclt j hjc2, ?_⟩
        rw [hr'cur j hjc2]
        omega
      · rintro ⟨hjn, hjr⟩
        by_cases hjc : j ∈ current
        · simpa using hjc
        · rw [hr'ncur j hjc] at hjr
          have := hrlt j
          omega
  · intro F hF
    rcases List.mem_append.mp hF with h | h
    · exact hfnd F h
    · have : F = current := by simpa using h
      subst this
      exact hndc

/-- Running the fuelled peeling loop from any invariant state with enough
fuel ends in an invariant state with an empty current front in which every
individual has been assigned a nonzero rank. -/
theorem peel_run (scores : List (List ℚ)) (L : ℕ) (hrect : Rect scores L) :
    ∀ (fuel : ℕ) (counts : List Int) (current : List ℕ) (frontNum : ℕ)
      (ranks : List ℕ) (fronts : List (List ℕ)),
      PeelInv scores counts current frontNum ranks fronts →
      (List.range scores.length).countP
        (fun j => decide (ranks.getD j 0 = 0)) < fuel →
      ∃ frontNumF countsF,
        PeelInv scores countsF [] frontNumF
          (peel (ndsSets scores) fuel counts current frontNum ranks fronts).1
          (peel (ndsSets scores) fuel counts current frontNum ranks fronts).2 ∧
        (∀ j < scores.length,
          (peel (ndsSets scores) fuel counts current frontNum ranks
            fronts).1.getD j 0 ≠ 0)
  | 0, counts, current, frontNum, ranks, fronts, hinv, hfuel => by omega
  | fuel+1, counts, current, frontNum, ranks, fronts, hinv, hfuel => by
    by_cases hcur : current = []
    · subst hcur
      have hres : peel (ndsSets scores) (fuel+1) counts [] frontNum ranks
          fronts = (ranks, fronts) := by
        unfold peel
        rw [if_pos rfl]
      rw [hres]
      refine ⟨frontNum, counts, hinv, ?_⟩
      intro j0 hj0
      intro hj0r
      have hS : j0 ∈ (List.range scores.length).filter
          (fun j => decide (ranks.getD j 0 = 0)) := by
        rw [List.mem_filter, List.mem_range]
        exact ⟨hj0, by simpa using hj0r⟩
      have hSlt : ∀ j ∈ (List.range scores.length).filter
          (fun j => decide (ranks.getD j 0 = 0)), j < scores.length := by
        intro j hj
        have := (List.mem_filter.mp hj).1
        rwa [List.mem_range] at this
      have hSne : (List.range scores.length).filter
          (fun j => decide (ranks.getD j 0 = 0)) ≠ [] := by
        intro hc
        rw [hc] at hS
        exact absurd hS (List.not_mem_nil j0)
      obtain ⟨jm, hjm, hjmin⟩ := exists_undominated scores L hrect
        ((List.range scores.length).filter
          (fun j => decide (ranks.getD j 0 = 0))).length
        ((List.range scores.length).filter
          (fun j => decide (ranks.getD j 0 = 0))) (le_refl _) hSne hSlt
      have hjm_lt : jm < scores.length := hSlt jm hjm
      have hjm_unr : ranks.getD jm 0 = 0 := by
        have := (List.mem_filter.mp hjm).2
        simpa using this
      have hp := hinv.pending_pos jm hjm_lt hjm_unr (List.not_mem_nil jm)
      rw [hinv.counts_eq jm hjm_lt] at hp
      have hdomall : ∀ i ∈ List.range scores.length,
          decide (Dominates scores i jm) = true →
          decide (ranks.getD i 0 ≠ 0) = true := by
        intro i hi hdom
        simp only [decide_eq_true_eq] at hdom ⊢
        intro h0
        have hiS : i ∈ (List.range scores.length).filter
            (fun j => decide (ranks.getD j 0 = 0)) := by
          rw [List.mem_filter]
          exact ⟨hi, by simpa using h0⟩
        exact hjmin i hiS hdom
      have hle : dominatedCount scores jm ≤ rankedDominators scores ranks jm := by
        rw [dominatedCount_eq scores jm hjm_lt]
        unfold rankedDominators
        exact List.countP_mono_left (fun x hx hpx => by
          rw [Bool.and_eq_true]
          exact ⟨hdomall x hx hpx, hpx⟩)
      omega
    · have hres : peel (ndsSets scores) (fuel+1) counts current frontNum ranks
          fronts = peel (ndsSets scores) fuel
            (peelStep (ndsSets scores) current counts).1
            (peelStep (ndsSets scores) current counts).2 (frontNum+1)
            (current.foldl (fun r i => r.set i frontNum) ranks)
            (fronts ++ [current]) := by
        simp only [peel]
        rw [if_neg hcur]
      have hinv2 := peel_inv_step scores counts current frontNum ranks fronts
        hinv hcur
      have hfuel2 : (List.range scores.length).countP (fun j =>
          decide ((current.foldl (fun r i => r.set i frontNum) ranks).getD j 0
            = 0)) < fuel := by
        have hstrict := countP_strict_mono
          (fun j => decide ((current.foldl (fun r i => r.set i frontNum)
            ranks).getD j 0 = 0))
          (fun j => decide (ranks.getD j 0 = 0))
          (List.range scores.length)
          (fun j _ hj => by
            simp only [decide_eq_true_eq] at hj ⊢
            rw [foldl_set_getD] at hj
            by_cases hm : j ∈ current ∧ j < ranks.length
            · rw [if_pos hm] at hj
              have := hinv.frontNum_pos
              omega
            · rwa [if_neg hm] at hj)
          (by
            obtain ⟨i1, hi1⟩ := List.exists_mem_of_ne_nil current hcur
            refine ⟨i1, by
              rw [List.mem_range]
              exact hinv.cur_lt i1 hi1, ?_, ?_⟩
            · simp only [decide_eq_true_eq]
              exact hinv.cur_unranked i1 hi1
            · simp only [decide_eq_true_eq]
              rw [foldl_set_getD, if_pos ⟨hi1, by
                rw [hinv.ranks_len]
                exact hinv.cur_lt i1 hi1⟩]
              have := hinv.frontNum_pos
              omega)
        omega
      obtain ⟨fF, cF, hres2, hcov⟩ := peel_run scores L hrect fuel
        (peelStep (ndsSets scores) current counts).1
        (peelStep (ndsSets scores) current counts).2 (frontNum+1)
        (current.foldl (fun r i => r.set i frontNum) ranks)
        (fronts ++ [current]) hinv2 hfuel2
      rw [hres]
      exact ⟨fF, cF, hres2, hcov⟩

theorem getD_replicate_of_lt {α : Type} {n i : ℕ} (a d : α) (h : i < n) :
    (List.replicate n a).getD i d = a := by
  rw [List.getD_eq_getElem?_getD]
  simp [List.getElem?_replicate, h]

theorem getD_replicate_zero (n j : ℕ) :
    (List.replicate n (0 : ℕ)).getD j 0 = 0 := by
  by_cases h : j < n
  · exact getD_replicate_of_lt 0 0 h
  · exact getD_of_length_le (by simpa using by omega) 0

/-- The state entering the peeling loop satisfies the invariant. -/
theorem peel_inv_initial (scores : List (List ℚ)) :
    PeelInv scores (ndsCounts scores) (ndsZeroFront scores) 1
      (List.replicate scores.length 0) [] := by
  have hclen : (ndsCounts scores).length = scores.length := by
    unfold ndsCounts
    rw [List.length_map, List.length_range]
  have hcget : ∀ j < scores.length,
      (ndsCounts scores).getD j 0 = (dominatedCount scores j : Int) :=
    fun j hj => getD_map_range _ _ _ _ hj
  refine ⟨List.length_replicate _ _, hclen, ?_, (List.nodup_range _).filter _,
    ?_, ?_, ?_, ?_, ?_, ?_, le_refl 1, ?_, ?_, rfl, ?_, ?_⟩
  · intro j hj
    rw [hcget j hj, rankedDominators_replicate]
    simp
  · intro j hj
    have := (List.mem_filter.mp hj).1
    rwa [List.mem_range] at this
  · intro j _
    exact getD_replicate_zero _ _
  · intro j hj
    have h2 := (List.mem_filter.mp hj).2
    simpa using h2
  · intro j hj _ hjn
    have hjr : j ∈ List.range scores.length := by
      rwa [List.mem_range]
    have hne : ¬((ndsCounts scores).getD j 0 = 0) := by
      intro hc
      exact hjn (by
        unfold ndsZeroFront
        rw [List.mem_filter]
        exact ⟨hjr, by simpa using hc⟩)
    rw [hcget j hj] at hne ⊢
    omega
  · intro j
    rw [getD_replicate_zero]
    omega
  · intro r hr1 hr2
    omega
  · intro j hj
    rw [getD_replicate_zero]
    constructor
    · intro hc
      omega
    · rintro ⟨hc, _⟩
      omega
  · intro j hj hjr
    rw [getD_replicate_zero] at hjr
    exact absurd rfl hjr
  · intro fi hfi
    simp at hfi
  · intro F hF
    exact absurd hF (List.not_mem_nil F)

/-- Final state of the non-dominated sort: the invariant holds with an empty
current front and every individual carries a nonzero rank. -/
theorem ndsRanks_final (scores : List (List ℚ)) (L : ℕ) (hrect : Rect scores L) :
    ∃ frontNumF countsF,
      PeelInv scores countsF [] frontNumF (ndsRanks scores) (ndsFronts scores) ∧
      (∀ j < scores.length, (ndsRanks scores).getD j 0 ≠ 0) := by
  have hfuel : (List.range scores.length).countP
      (fun j => decide ((List.replicate scores.length (0 : ℕ)).getD j 0 = 0))
      < scores.length + 1 := by
    have hle := List.countP_le_length
      (fun j => decide ((List.replicate scores.length (0 : ℕ)).getD j 0 = 0))
      (l := List.range scores.length)
    rw [List.length_range] at hle
    omega
  obtain ⟨fF, cF, hinv, hcov⟩ := peel_run scores L hrect (scores.length + 1)
    (ndsCounts scores) (ndsZeroFront scores) 1
    (List.replicate scores.length 0) [] (peel_inv_initial scores) hfuel
  exact ⟨fF, cF, hinv, hcov⟩

theorem dominatedCount_zero_iff (scores : List (List ℚ)) (j : ℕ)
    (hj : j < scores.length) :
    dominatedCount scores j = 0 ↔ ¬∃ i, i < scores.length ∧ Dominates scores i j := by
  rw [dominatedCount_eq scores j hj, List.countP_eq_zero]
  constructor
  · rintro h ⟨i, hi, hdom⟩
    exact h i (by rwa [List.mem_range]) (by simpa using hdom)
  · intro h i hi hdec
    rw [List.mem_range] at hi
    exact h ⟨i, hi, by simpa using hdec⟩

/-- C6.  `non_dominated_sort` assigns rank 1 exactly to the individuals
dominated by no other individual, and (front-1 closure) if all individuals
are pairwise mutually non-dominated then every individual receives
rank 1.  The iterative decrement-and-peel construction of the further
fronts is the definition of `peel`; its coverage and contiguity properties
are settled with claim C10. -/
theorem C6_rank_one_characterization (scores : List (List ℚ)) (L : ℕ)
    (hrect : Rect scores L) :
    (∀ j < scores.length,
      ((non_dominated_sort scores).1.getD j 0 = 1 ↔
        ¬∃ i, i < scores.length ∧ Dominates scores i j)) ∧
    ((∀ i j, i < scores.length → j < scores.length → i ≠ j →
        determine_dominance (row scores i) (row scores j) = 0) →
      ∀ j < scores.length, (non_dominated_sort scores).1.getD j 0 = 1) := by
  have hfst : (non_dominated_sort scores).1 = ndsRanks scores := rfl
  rw [hfst]
  obtain ⟨fF, cF, hinv, hcov⟩ := ndsRanks_final scores L hrect
  have hiff : ∀ j < scores.length,
      ((ndsRanks scores).getD j 0 = 1 ↔
        ¬∃ i, i < scores.length ∧ Dominates scores i j) := by
    intro j hj
    have h2 : 2 ≤ fF := by
      have h1 := hcov j hj
      have h3 := hinv.ranks_lt j
      omega
    rw [hinv.rank_one j hj, ← dominatedCount_zero_iff scores j hj]
    constructor
    · exact fun h => h.2
    · exact fun h => ⟨h2, h⟩
  refine ⟨hiff, ?_⟩
  intro hpair j hj
  rw [hiff j hj]
  rintro ⟨i, hi, hdom⟩
  by_cases hij : i = j
  · subst hij
    exact Dominates_irrefl scores i hdom
  · have := hpair i j hi hj hij
    unfold Dominates at hdom
    omega

theorem C6_rank_one_characterization_witness :
    Rect [[(1 : ℚ), 5], [5, 1], [3, 3]] 2 ∧
    (non_dominated_sort [[(1 : ℚ), 5], [5, 1], [3, 3]]).1.getD 0 0 = 1 := by
  refine ⟨by with_unfolding_all decide, ?_⟩
  have h := (C6_rank_one_characterization [[(1 : ℚ), 5], [5, 1], [3, 3]] 2
    (by with_unfolding_all decide)).2
  refine h ?_ 0 (by decide)
  intro i j hi hj hne
  have hi3 : i < 3 := by simpa using hi
  have hj3 : j < 3 := by simpa using hj
  interval_cases i <;> interval_cases j <;>
    first
    | omega
    | with_unfolding_all decide

/-- C10.  For every nonempty (rectangular) score matrix the assigned ranks
are all at least 1, the set of assigned ranks is downward closed above 1
(hence a contiguous range starting at 1), at least one individual has
rank 1, and consequently the defensive fallback branch of the leader
selection (`frontOne`) is never taken: `frontOne` returns the rank-1 filter
itself. -/
theorem C10_rank_coverage (scores : List (List ℚ)) (L : ℕ)
    (hrect : Rect scores L) (hne : scores ≠ []) :
    (∀ j < scores.length, 1 ≤ (non_dominated_sort scores).1.getD j 0) ∧
    (∀ r, 2 ≤ r →
      (∃ j, j < scores.length ∧ (non_dominated_sort scores).1.getD j 0 = r) →
      ∃ j2, j2 < scores.length ∧
        (non_dominated_sort scores).1.getD j2 0 = r - 1) ∧
    (∃ j, j < scores.length ∧ (non_dominated_sort scores).1.getD j 0 = 1) ∧
    ((List.range scores.length).filter
      (fun i => decide ((non_dominated_sort scores).1.getD i 0 = 1)) ≠ []) ∧
    frontOne scores.length (non_dominated_sort scores).1 =
      (List.range scores.length).filter
        (fun i => decide ((non_dominated_sort scores).1.getD i 0 = 1)) := by
  have hfst : (non_dominated_sort scores).1 = ndsRanks scores := rfl
  rw [hfst]
  obtain ⟨fF, cF, hinv, hcov⟩ := ndsRanks_final scores L hrect
  have hn1 : 1 ≤ scores.length := by
    cases scores with
    | nil => exact absurd rfl hne
    | cons a l => simp
  have hcov1 : ∀ j < scores.length, 1 ≤ (ndsRanks scores).getD j 0 := by
    intro j hj
    have := hcov j hj
    omega
  have h2le : 2 ≤ fF := by
    have h1 := hcov1 0 (by omega)
    have h3 := hinv.ranks_lt 0
    omega
  have hex1 : ∃ j, j < scores.length ∧ (ndsRanks scores).getD j 0 = 1 := by
    obtain ⟨j, hj, hjr⟩ := hinv.ranks_attained 1 (le_refl 1) (by omega)
    exact ⟨j, hj, hjr⟩
  have hfilter_ne : (List.range scores.length).filter
      (fun i => decide ((ndsRanks scores).getD i 0 = 1)) ≠ [] := by
    obtain ⟨j, hj, hjr⟩ := hex1
    intro hc
    have : j ∈ (List.range scores.length).filter
        (fun i => decide ((ndsRanks scores).getD i 0 = 1)) := by
      rw [List.mem_filter, List.mem_range]
      exact ⟨hj, by simpa using hjr⟩
    rw [hc] at this
    exact absurd this (List.not_mem_nil j)
  refine ⟨hcov1, ?_, hex1, hfilter_ne, ?_⟩
  · intro r hr2 hex
    obtain ⟨j, hj, hjr⟩ := hex
    have hlt := hinv.ranks_lt j
    obtain ⟨j2, hj2, hj2r⟩ := hinv.ranks_attained (r - 1) (by omega) (by omega)
    exact ⟨j2, hj2, hj2r⟩
  · unfold frontOne
    rw [if_neg hfilter_ne]

theorem C10_rank_coverage_witness :
    Rect [[(1 : ℚ), 5], [5, 1], [3, 3]] 2 ∧
    ([[(1 : ℚ), 5], [5, 1], [3, 3]] : List (List ℚ)) ≠ [] ∧
    (List.range 3).filter (fun i => decide
      ((non_dominated_sort [[(1 : ℚ), 5], [5, 1], [3, 3]]).1.getD i 0 = 1))
      ≠ [] := by
  refine ⟨by with_unfolding_all decide, by with_unfolding_all decide, ?_⟩
  exact (C10_rank_coverage [[(1 : ℚ), 5], [5, 1], [3, 3]] 2
    (by with_unfolding_all decide) (by with_unfolding_all decide)).2.2.2.1

theorem selLoop_fill (n pop_size fF : ℕ) (ranks : List ℕ)
    (crowd : List (WithTop ℚ))
    (hcov : ∀ j < n, 1 ≤ ranks.getD j 0)
    (hltF : ∀ j, ranks.getD j 0 < fF)
    (hatt : ∀ r, 1 ≤ r → r < fF → ∃ j, j < n ∧ ranks.getD j 0 = r)
    (hpn : pop_size ≤ n) :
    ∀ (fuel front_num : ℕ) (sel : List ℕ),
      1 ≤ front_num →
      sel.length = (List.range n).countP
        (fun i => decide (1 ≤ ranks.getD i 0 ∧ ranks.getD i 0 < front_num)) →
      sel.length ≤ pop_size →
      pop_size - sel.length < fuel →
      (selLoop n ranks crowd pop_size fuel front_num sel).length = pop_size
  | 0, front_num, sel => by
    intro h1F hlen hle hfuel
    exact absurd hfuel (by omega)
  | fuel+1, front_num, sel => by
    intro h1F hlen hle hfuel
    by_cases hfull : pop_size ≤ sel.length
    · simp only [selLoop]
      rw [if_pos hfull]
      omega
    · have hflt : front_num < fF := by
        by_contra hge
        have hall : (List.range n).countP
            (fun i => decide (1 ≤ ranks.getD i 0 ∧ ranks.getD i 0 < fF))
            = (List.range n).length := by
          apply List.countP_eq_length.mpr
          intro a ha
          rw [List.mem_range] at ha
          simp only [decide_eq_true_eq]
          exact ⟨hcov a ha, hltF a⟩
        have hmono : (List.range n).countP
            (fun i => decide (1 ≤ ranks.getD i 0 ∧ ranks.getD i 0 < fF))
            ≤ (List.range n).countP
            (fun i => decide (1 ≤ ranks.getD i 0 ∧ ranks.getD i 0 < front_num)) := by
          apply List.countP_mono_left
          intro x _ hx
          simp only [decide_eq_true_eq] at hx ⊢
          omega
        rw [List.length_range] at hall
        omega
      obtain ⟨j, hj, hjr⟩ := hatt front_num h1F hflt
      have hne : ((List.range n).filter
          (fun i => decide (ranks.getD i 0 = front_num))) ≠ [] := by
        intro hc
        have hmem : j ∈ (List.range n).filter
            (fun i => decide (ranks.getD i 0 = front_num)) := by
          rw [List.mem_filter, List.mem_range]
          exact ⟨hj, by simpa using hjr⟩
        rw [hc] at hmem
        exact absurd hmem (List.not_mem_nil j)
      have hfi_pos : 0 < ((List.range n).filter
          (fun i => decide (ranks.getD i 0 = front_num))).length :=
        List.length_pos.mpr hne
      simp only [selLoop]
      rw [if_neg hfull, if_neg hne]
      by_cases hfit : sel.length + ((List.range n).filter
          (fun i => decide (ranks.getD i 0 = front_num))).length ≤ pop_size
      · rw [if_pos hfit]
        have hla : (sel ++ (List.range n).filter
            (fun i => decide (ranks.getD i 0 = front_num))).length
            = sel.length + ((List.range n).filter
              (fun i => decide (ranks.getD i 0 = front_num))).length :=
          List.length_append _ _
        have hpt : ∀ i ∈ List.range n,
            (decide (1 ≤ ranks.getD i 0 ∧ ranks.getD i 0 < front_num + 1))
              = (decide (1 ≤ ranks.getD i 0 ∧ ranks.getD i 0 < front_num)
                  || decide (ranks.getD i 0 = front_num)) := by
          intro i _
          rw [← Bool.decide_or]
          exact decide_eq_decide.mpr (by omega)
        have hdisj : ∀ a ∈ List.range n,
            ¬((fun i => decide (1 ≤ ranks.getD i 0 ∧ ranks.getD i 0 < front_num))
                a = true ∧
              (fun i => decide (ranks.getD i 0 = front_num)) a = true) := by
          intro a _ hand
          obtain ⟨h1, h2⟩ := hand
          simp only [decide_eq_true_eq] at h1 h2
          omega
        have hd := countP_or_disjoint
          (fun i => decide (1 ≤ ranks.getD i 0 ∧ ranks.getD i 0 < front_num))
          (fun i => decide (ranks.getD i 0 = front_num)) (List.range n) hdisj
        have hcongr : (List.range n).countP
            (fun i => decide (1 ≤ ranks.getD i 0 ∧ ranks.getD i 0 < front_num + 1))
            = (List.range n).countP
            (fun a => decide (1 ≤ ranks.getD a 0 ∧ ranks.getD a 0 < front_num)
                || decide (ranks.getD a 0 = front_num)) := by
          rw [List.countP_eq_length_filter, List.countP_eq_length_filter,
            List.filter_congr hpt]
        have hfi_len : (List.range n).countP
            (fun i => decide (ranks.getD i 0 = front_num))
            = ((List.range n).filter
                (fun i => decide (ranks.getD i 0 = front_num))).length := by
          rw [List.countP_eq_length_filter]
        have hlen' : (sel ++ (List.range n).filter
            (fun i => decide (ranks.getD i 0 = front_num))).length
            = (List.range n).countP
            (fun i => decide (1 ≤ ranks.getD i 0 ∧ ranks.getD i 0 < front_num + 1)) := by
          rw [hla, hcongr, hd, hlen, hfi_len]
        exact selLoop_fill n pop_size fF ranks crowd hcov hltF hatt hpn
          fuel (front_num + 1) _ (by omega) hlen' (by omega) (by omega)
      · rw [if_neg hfit]
        simp only [List.length_append, List.length_map, List.length_take,
          List.length_reverse, List.length_mergeSort, List.length_range]
        omega

theorem env_sel_exact (pop_size dim L : ℕ)
    (Ppos Pscores Qpos Qscores : List (List ℚ))
    (hPs : Pscores.length = pop_size) (hQs : Qscores.length = pop_size)
    (hpos : 1 ≤ pop_size)
    (hrect : Rect (Pscores ++ Qscores) L) :
    (selLoop (Pscores ++ Qscores).length
        (non_dominated_sort (Pscores ++ Qscores)).1
        (non_dominated_sort (Pscores ++ Qscores)).2
        pop_size (pop_size + 1) 1 []).length = pop_size ∧
    (environmental_selection pop_size dim Ppos Pscores Qpos Qscores).1
      = (selLoop (Pscores ++ Qscores).length
          (non_dominated_sort (Pscores ++ Qscores)).1
          (non_dominated_sort (Pscores ++ Qscores)).2
          pop_size (pop_size + 1) 1 []).map
          (fun i => (Ppos ++ Qpos).getD i []) ∧
    (environmental_selection pop_size dim Ppos Pscores Qpos Qscores).2
      = (selLoop (Pscores ++ Qscores).length
          (non_dominated_sort (Pscores ++ Qscores)).1
          (non_dominated_sort (Pscores ++ Qscores)).2
          pop_size (pop_size + 1) 1 []).map
          (fun i => (Pscores ++ Qscores).getD i []) ∧
    (environmental_selection pop_size dim Ppos Pscores Qpos Qscores).1.length
      = pop_size ∧
    (environmental_selection pop_size dim Ppos Pscores Qpos Qscores).2.length
      = pop_size := by
  have hfst : (non_dominated_sort (Pscores ++ Qscores)).1
      = ndsRanks (Pscores ++ Qscores) := rfl
  have hn : (Pscores ++ Qscores).length = pop_size + pop_size := by
    rw [List.length_append, hPs, hQs]
  obtain ⟨fF, cF, hinv, hcov⟩ := ndsRanks_final (Pscores ++ Qscores) L hrect
  have hcov1 : ∀ j < (Pscores ++ Qscores).length,
      1 ≤ (ndsRanks (Pscores ++ Qscores)).getD j 0 := by
    intro j hj
    have := hcov j hj
    omega
  have hlen0 : ([] : List ℕ).length = (List.range (Pscores ++ Qscores).length).countP
      (fun i => decide (1 ≤ (ndsRanks (Pscores ++ Qscores)).getD i 0 ∧
        (ndsRanks (Pscores ++ Qscores)).getD i 0 < 1)) := by
    symm
    apply List.countP_eq_zero.mpr
    intro a _
    simp only [decide_eq_true_eq]
    omega
  have hfill := selLoop_fill (Pscores ++ Qscores).length pop_size fF
    (ndsRanks (Pscores ++ Qscores)) (non_dominated_sort (Pscores ++ Qscores)).2
    hcov1 hinv.ranks_lt hinv.ranks_attained (by omega)
    (pop_size + 1) 1 [] (le_refl 1) hlen0
    (by simp only [List.length_nil]; omega)
    (by simp only [List.length_nil]; omega)
  rw [hfst]
  refine ⟨hfill, ?_, ?_, ?_, ?_⟩ <;>
    simp only [environmental_selection] <;>
    rw [hfst, hfill, Nat.sub_self, List.replicate_zero, List.append_nil] <;>
    simp only [List.length_map] <;>
    exact hfill

/-- C4.  Whenever `EnvironmentalSelection` is handed two populations of
`pop_size` rows each (so the stacked pool holds `2*pop_size` candidates),
the front-filling loop selects exactly `pop_size` pool members, the
preallocated zero rows are never left in the output, and the returned
position and score matrices have exactly `pop_size` rows.  The loop itself
(`selLoop`, translated from lines 256-274) copies whole fronts in
increasing rank order while they fit and completes the population from the
first overflowing front by descending crowding distance. -/
theorem C4_selection_size (pop_size dim L : ℕ)
    (Ppos Pscores Qpos Qscores : List (List ℚ))
    (hPs : Pscores.length = pop_size) (hQs : Qscores.length = pop_size)
    (hpos : 1 ≤ pop_size)
    (hrect : Rect (Pscores ++ Qscores) L) :
    (selLoop (Pscores ++ Qscores).length
        (non_dominated_sort (Pscores ++ Qscores)).1
        (non_dominated_sort (Pscores ++ Qscores)).2
        pop_size (pop_size + 1) 1 []).length = pop_size ∧
    (environmental_selection pop_size dim Ppos Pscores Qpos Qscores).1
      = (selLoop (Pscores ++ Qscores).length
          (non_dominated_sort (Pscores ++ Qscores)).1
          (non_dominated_sort (Pscores ++ Qscores)).2
          pop_size (pop_size + 1) 1 []).map
          (fun i => (Ppos ++ Qpos).getD i []) ∧
    (environmental_selection pop_size dim Ppos Pscores Qpos Qscores).2
      = (selLoop (Pscores ++ Qscores).length
          (non_dominated_sort (Pscores ++ Qscores)).1
          (non_dominated_sort (Pscores ++ Qscores)).2
          pop_size (pop_size + 1) 1 []).map
          (fun i => (Pscores ++ Qscores).getD i []) ∧
    (environmental_selection pop_size dim Ppos Pscores Qpos Qscores).1.length
      = pop_size ∧
    (environmental_selection pop_size dim Ppos Pscores Qpos Qscores).2.length
      = pop_size :=
  env_sel_exact pop_size dim L Ppos Pscores Qpos Qscores hPs hQs hpos hrect

theorem C4_selection_size_witness :
    ([[(0 : ℚ), 1], [1, 0]] : List (List ℚ)).length = 2 ∧
    ([[(2 : ℚ), 2], [0, 3]] : List (List ℚ)).length = 2 ∧
    (1 : ℕ) ≤ 2 ∧
    Rect ([[(0 : ℚ), 1], [1, 0]] ++ [[(2 : ℚ), 2], [0, 3]]) 2 ∧
    (environmental_selection 2 1 [[(0 : ℚ)], [1]] [[(0 : ℚ), 1], [1, 0]]
      [[(2 : ℚ)], [3]] [[(2 : ℚ), 2], [0, 3]]).1.length = 2 := by
  refine ⟨rfl, rfl, by omega, by with_unfolding_all decide, ?_⟩
  exact (C4_selection_size 2 1 2 [[(0 : ℚ)], [1]] [[(0 : ℚ), 1], [1, 0]]
    [[(2 : ℚ)], [3]] [[(2 : ℚ), 2], [0, 3]] rfl rfl (by omega)
    (by with_unfolding_all decide)).2.2.2.2

theorem setPairs_length :
    ∀ (ps : List (ℕ × WithTop ℚ)) (cd : List (WithTop ℚ)),
      (ps.foldl (fun c q => c.set q.1 q.2) cd).length = cd.length
  | [], _ => rfl
  | q :: ps, cd => by
    rw [List.foldl_cons, setPairs_length ps, List.length_set]

theorem setPairs_not_mem :
    ∀ (ps : List (ℕ × WithTop ℚ)) (cd : List (WithTop ℚ)) (j : ℕ),
      (∀ q ∈ ps, q.1 ≠ j) →
      (ps.foldl (fun c q => c.set q.1 q.2) cd).getD j 0 = cd.getD j 0
  | [], _, _, _ => rfl
  | q :: ps, cd, j, h => by
    rw [List.foldl_cons,
      setPairs_not_mem ps _ j (fun r hr => h r (List.mem_cons_of_mem _ hr))]
    exact getD_set_neq cd q.1 j q.2 0 (h q (List.mem_cons_self _ _))

theorem scatterFront_length (cd : List (WithTop ℚ)) (front : List ℕ)
    (vals : List (WithTop ℚ)) :
    (scatterFront cd front vals).length = cd.length :=
  setPairs_length _ _

theorem scatterFront_not_mem (cd : List (WithTop ℚ)) (front : List ℕ)
    (vals : List (WithTop ℚ)) (j : ℕ) (h : j ∉ front) :
    (scatterFront cd front vals).getD j 0 = cd.getD j 0 := by
  apply setPairs_not_mem
  intro q hq hqj
  exact h (hqj ▸ (List.of_mem_zip hq).1)

theorem scatterFront_getD_mem :
    ∀ (front : List ℕ) (vals : List (WithTop ℚ)) (cd : List (WithTop ℚ))
      (p : ℕ), front.Nodup → p < front.length → p < vals.length →
      front.getD p 0 < cd.length →
      (scatterFront cd front vals).getD (front.getD p 0) 0 = vals.getD p 0
  | [], _, _, p => by
    intro _ hp _ _
    simp at hp
  | _ :: _, [], _, p => by
    intro _ _ hv _
    simp at hv
  | a :: front, v :: vals, cd, 0 => by
    intro hnd _ _ hlt
    unfold scatterFront
    rw [List.zip_cons_cons]
    simp only [List.foldl_cons]
    have hgd : (a :: front).getD 0 0 = a := rfl
    rw [hgd] at hlt ⊢
    have hnotin : a ∉ front := (List.nodup_cons.mp hnd).1
    rw [setPairs_not_mem (front.zip vals) _ a
      (fun q hq hqa => hnotin (hqa ▸ (List.of_mem_zip hq).1))]
    exact getD_set_eq cd a v 0 hlt
  | a :: front, v :: vals, cd, p+1 => by
    intro hnd hp hv hlt
    unfold scatterFront
    rw [List.zip_cons_cons]
    simp only [List.foldl_cons]
    have hgd : (a :: front).getD (p+1) 0 = front.getD p 0 := rfl
    rw [hgd] at hlt ⊢
    have hrec := scatterFront_getD_mem front vals (cd.set a v) p
      (List.nodup_cons.mp hnd).2 (by simpa using hp) (by simpa using hv)
      (by rw [List.length_set]; exact hlt)
    unfold scatterFront at hrec
    exact hrec

theorem crowdFold_length (fs : List (List ℚ)) :
    ∀ (ms : List ℕ) (d : List (WithTop ℚ)),
      (ms.foldl (crowdStep fs) d).length = d.length
  | [], _ => rfl
  | m :: ms, d => by
    rw [List.foldl_cons, crowdFold_length fs ms, crowdStep_length]

theorem crowding_of_front_length (fs : List (List ℚ)) (n_obj : ℕ) :
    (crowding_of_front fs n_obj).length = fs.length := by
  unfold crowding_of_front
  split
  · exact List.length_replicate _ _
  · rw [crowdFold_length fs, List.length_replicate]

theorem frontsFold_length (g : List ℕ → List (WithTop ℚ)) :
    ∀ (fronts : List (List ℕ)) (cd : List (WithTop ℚ)),
      (fronts.foldl (fun c f => scatterFront c f (g f)) cd).length = cd.length
  | [], _ => rfl
  | f :: fronts, cd => by
    rw [List.foldl_cons, frontsFold_length g fronts, scatterFront_length]

theorem frontsFold_not_mem (g : List ℕ → List (WithTop ℚ)) :
    ∀ (fronts : List (List ℕ)) (cd : List (WithTop ℚ)) (j : ℕ),
      (∀ f ∈ fronts, j ∉ f) →
      (fronts.foldl (fun c f => scatterFront c f (g f)) cd).getD j 0
        = cd.getD j 0
  | [], _, _, _ => rfl
  | f :: fronts, cd, j, h => by
    rw [List.foldl_cons,
      frontsFold_not_mem g fronts _ j
        (fun r hr => h r (List.mem_cons_of_mem _ hr))]
    exact scatterFront_not_mem cd f (g f) j (h f (List.mem_cons_self _ _))

theorem nds_crowd_getD (scores : List (List ℚ)) (L : ℕ) (hrect : Rect scores L)
    (front : List ℕ) (hmem : front ∈ ndsFronts scores) (p : ℕ)
    (hp : p < front.length) :
    (non_dominated_sort scores).2.getD (front.getD p 0) 0
      = (crowding_of_front (front.map (fun i => row scores i))
          (scores.getD 0 []).length).getD p 0 := by
  have h2 : (non_dominated_sort scores).2
      = (ndsFronts scores).foldl
        (fun cd f => scatterFront cd f
          (crowding_of_front (f.map (fun i => row scores i))
            (scores.getD 0 []).length))
        (List.replicate scores.length (0 : WithTop ℚ)) := rfl
  obtain ⟨fF, cF, hinv, hcov⟩ := ndsRanks_final scores L hrect
  obtain ⟨fi, hfi, hfeq⟩ := List.getElem_of_mem hmem
  have hfgetD : (ndsFronts scores).getD fi [] = front := by
    rw [List.getD_eq_getElem _ _ hfi]
    exact hfeq
  have hjmem : front.getD p 0 ∈ front := getD_mem 0 hp
  have hjrank := (hinv.fronts_mem fi hfi (front.getD p 0)).mp
    (hfgetD ▸ hjmem)
  have hsplit : ndsFronts scores
      = (ndsFronts scores).take fi ++
          front :: (ndsFronts scores).drop (fi + 1) := by
    conv_lhs => rw [← List.take_append_drop fi (ndsFronts scores)]
    rw [List.drop_eq_getElem_cons hfi, hfeq]
  have hnotpost : ∀ f ∈ (ndsFronts scores).drop (fi + 1),
      front.getD p 0 ∉ f := by
    intro f hf hjf
    obtain ⟨k, hk, hkeq⟩ := List.getElem_of_mem hf
    have hklen : fi + 1 + k < (ndsFronts scores).length := by
      rw [List.length_drop] at hk
      omega
    have hfk : ((ndsFronts scores).drop (fi + 1))[k] =
        (ndsFronts scores)[fi + 1 + k] := List.getElem_drop _
    have hgd2 : (ndsFronts scores).getD (fi + 1 + k) [] = f := by
      rw [List.getD_eq_getElem _ _ hklen, ← hfk, hkeq]
    have hjrank2 := (hinv.fronts_mem (fi + 1 + k) hklen
      (front.getD p 0)).mp (hgd2 ▸ hjf)
    omega
  rw [h2, hsplit, List.foldl_append]
  simp only [List.foldl_cons]
  refine Eq.trans (frontsFold_not_mem _ _ _ _ hnotpost) ?_
  apply scatterFront_getD_mem front _ _ p
    (hinv.fronts_nodup front hmem) hp
  · rw [crowding_of_front_length, List.length_map]
    exact hp
  · rw [frontsFold_length, List.length_replicate]
    exact hjrank.1

/-- C5.  Crowding distances: every member of a front with at most two
members receives distance `inf` (= `⊤`); in a front with more than two
members the member at slot `p` receives `⊤` exactly when it is a boundary
(minimum or maximum) member of some objective coordinate with nonzero
range over the front, and otherwise the sum over the nonzero-range
coordinates of `(next value - previous value) / (max value - min value)`
along that coordinate's sorted order, zero-range coordinates contributing
nothing; and the single-objective front with values `[0, 1, 2, 10]`
receives distances `[inf, 1/5, 9/10, inf]`. -/
theorem C5_crowding_distance (scores : List (List ℚ)) (L : ℕ)
    (hrect : Rect scores L) :
    (∀ front ∈ ndsFronts scores, front.length ≤ 2 →
      ∀ j ∈ front, (non_dominated_sort scores).2.getD j 0 = ⊤) ∧
    (∀ front ∈ ndsFronts scores, 2 < front.length →
      ∀ p < front.length,
        (non_dominated_sort scores).2.getD (front.getD p 0) 0
          = crowdingSpecAt (front.map (fun i => row scores i))
              ((scores.getD 0 []).length) p) ∧
    crowding_of_front [[(0 : ℚ)], [1], [2], [10]] 1
      = [⊤, (((1 : ℚ) / 5 : ℚ) : WithTop ℚ),
          (((9 : ℚ) / 10 : ℚ) : WithTop ℚ), ⊤] := by
  refine ⟨?_, ?_, by with_unfolding_all decide⟩
  · intro front hmem hlen2 j hj
    obtain ⟨p, hp, hpeq⟩ := List.getElem_of_mem hj
    have hpd : front.getD p 0 = j := by
      rw [List.getD_eq_getElem _ _ hp]
      exact hpeq
    rw [← hpd, nds_crowd_getD scores L hrect front hmem p hp]
    have hcf : crowding_of_front (front.map (fun i => row scores i))
        ((scores.getD 0 []).length)
        = List.replicate (front.map (fun i => row scores i)).length ⊤ := by
      unfold crowding_of_front
      rw [if_pos (by rw [List.length_map]; exact hlen2)]
    rw [hcf]
    exact getD_replicate_of_lt _ _ (by rw [List.length_map]; exact hp)
  · intro front hmem hlen2 p hp
    rw [nds_crowd_getD scores L hrect front hmem p hp]
    exact crowding_of_front_char (front.map (fun i => row scores i)) _ p
      (by rw [List.length_map]; exact hlen2) (by rw [List.length_map]; exact hp)

theorem clip_bounds (lb ub x : ℚ) (hub : lb ≤ ub) :
    lb ≤ clip lb ub x ∧ clip lb ub x ≤ ub := by
  unfold clip
  exact ⟨le_min (le_max_right x lb) hub, min_le_right _ _⟩

theorem clipVec_bounds (lb ub : ℚ) (X : List ℚ) (hub : lb ≤ ub) :
    ∀ x ∈ clipVec lb ub X, lb ≤ x ∧ x ≤ ub := by
  intro x hx
  obtain ⟨y, _, hy⟩ := List.mem_map.mp hx
  exact hy ▸ clip_bounds lb ub y hub

theorem try_accept_inBounds (f : List ℚ → List ℚ) (lb ub : ℚ) (i : ℕ)
    (B : Buf) (X : List ℚ) (hub : lb ≤ ub) (hB : inBounds lb ub B.pos) :
    inBounds lb ub (try_accept f lb ub i B X).pos := by
  by_cases hdd : 0 ≤ determine_dominance (f (clipVec lb ub X))
    (B.scores.getD i [])
  · rw [try_accept_accepts f lb ub i B X hdd]
    intro r hr x hx
    rcases List.mem_or_eq_of_mem_set hr with h | h
    · exact hB r h x hx
    · exact clipVec_bounds lb ub X hub x (h ▸ hx)
  · rw [try_accept_rejects f lb ub i B X (not_le.mp hdd)]
    exact hB

theorem try_accept_preserve (f : List ℚ → List ℚ) (lb ub : ℚ)
    (L np ns : ℕ) (i : ℕ) (B : Buf) (X : List ℚ) (hub : lb ≤ ub)
    (hf : ∀ x, (f x).length = L) :
    (inBounds lb ub B.pos ∧ Rect B.scores L ∧ B.pos.length = np ∧
      B.scores.length = ns) →
    (inBounds lb ub (try_accept f lb ub i B X).pos ∧
      Rect (try_accept f lb ub i B X).scores L ∧
      (try_accept f lb ub i B X).pos.length = np ∧
      (try_accept f lb ub i B X).scores.length = ns) := by
  rintro ⟨h1, h2, h3, h4⟩
  refine ⟨try_accept_inBounds f lb ub i B X hub h1, ?_,
    by rw [try_accept_pos_length]; exact h3,
    by rw [try_accept_scores_length]; exact h4⟩
  by_cases hdd : 0 ≤ determine_dominance (f (clipVec lb ub X))
    (B.scores.getD i [])
  · rw [try_accept_accepts f lb ub i B X hdd]
    intro r hr
    rcases List.mem_or_eq_of_mem_set hr with h | h
    · exact h2 r h
    · rw [h]
      exact hf _
  · rw [try_accept_rejects f lb ub i B X (not_le.mp hdd)]
    exact h2

theorem foldl_preserve {α β : Type} (P : β → Prop) (g : β → α → β)
    (h : ∀ b a, P b → P (g b a)) :
    ∀ (l : List α) (b : β), P b → P (l.foldl g b)
  | [], _, hb => hb
  | a :: l, b, hb => foldl_preserve P g h l (g b a) (h b a hb)

theorem runPhases_preserve (tape : Tape) (texp : ℕ → ℕ → Bool)
    (f : List ℚ → List ℚ) (pop_size max_gen : ℕ) (lb ub : ℚ)
    (dim t L np ns : ℕ) (front1 : List ℕ) (hub : lb ≤ ub)
    (hf : ∀ x, (f x).length = L) (B : Buf)
    (hB : inBounds lb ub B.pos ∧ Rect B.scores L ∧ B.pos.length = np ∧
      B.scores.length = ns) :
    inBounds lb ub (runPhases tape texp f pop_size max_gen lb ub dim t
      front1 B).pos ∧
    Rect (runPhases tape texp f pop_size max_gen lb ub dim t
      front1 B).scores L ∧
    (runPhases tape texp f pop_size max_gen lb ub dim t front1 B).pos.length
      = np ∧
    (runPhases tape texp f pop_size max_gen lb ub dim t front1 B).scores.length
      = ns := by
  have hexp := foldl_preserve
    (fun b : Buf => inBounds lb ub b.pos ∧ Rect b.scores L ∧
      b.pos.length = np ∧ b.scores.length = ns)
    (exploration_step tape texp f pop_size max_gen lb ub dim t front1)
    (fun b a hb => try_accept_preserve f lb ub L np ns a _ _ hub hf
      (try_accept_preserve f lb ub L np ns a b _ hub hf hb))
    (List.range (pop_size / 2)) B hB
  have hdef := foldl_preserve
    (fun b : Buf => inBounds lb ub b.pos ∧ Rect b.scores L ∧
      b.pos.length = np ∧ b.scores.length = ns)
    (defense_step tape f lb ub dim t)
    (fun b a hb => try_accept_preserve f lb ub L np ns a b _ hub hf hb)
    (List.range' (pop_size / 2) (pop_size - pop_size / 2)) _ hexp
  exact foldl_preserve
    (fun b : Buf => inBounds lb ub b.pos ∧ Rect b.scores L ∧
      b.pos.length = np ∧ b.scores.length = ns)
    (escape_step tape f lb ub dim t)
    (fun b a hb => try_accept_preserve f lb ub L np ns a b _ hub hf hb)
    (List.range pop_size) _ hdef

theorem initPop_wf (tape : Tape) (f : List ℚ → List ℚ)
    (pop_size : ℕ) (lb ub : ℚ) (dim L : ℕ) (hub : lb ≤ ub)
    (hf : ∀ x, (f x).length = L)
    (htape : ∀ i k, 0 ≤ tape.u 0 0 i k ∧ tape.u 0 0 i k ≤ 1) :
    inBounds lb ub (initPop tape f pop_size lb ub dim).pos ∧
    Rect (initPop tape f pop_size lb ub dim).scores L ∧
    (initPop tape f pop_size lb ub dim).pos.length = pop_size ∧
    (initPop tape f pop_size lb ub dim).scores.length = pop_size := by
  refine ⟨?_, ?_, by simp [initPop], by simp [initPop]⟩
  · intro r hr x hx
    simp only [initPop] at hr
    obtain ⟨i, _, hieq⟩ := List.mem_map.mp hr
    rw [← hieq] at hx
    obtain ⟨k, _, hkeq⟩ := List.mem_map.mp hx
    rw [← hkeq]
    obtain ⟨hu0, hu1⟩ := htape i k
    constructor
    · nlinarith
    · nlinarith
  · intro r hr
    simp only [initPop] at hr
    obtain ⟨p0, _, hpeq⟩ := List.mem_map.mp hr
    rw [← hpeq]
    exact hf p0

theorem selLoop_mem_lt (n pop_size : ℕ) (ranks : List ℕ)
    (crowd : List (WithTop ℚ)) (hn : 0 < n) :
    ∀ (fuel front_num : ℕ) (sel : List ℕ), (∀ j ∈ sel, j < n) →
      ∀ j ∈ selLoop n ranks crowd pop_size fuel front_num sel, j < n
  | 0, _, sel => fun hsel => hsel
  | fuel+1, front_num, sel => by
    intro hsel j hj
    simp only [selLoop] at hj
    by_cases hfull : pop_size ≤ sel.length
    · rw [if_pos hfull] at hj
      exact hsel j hj
    · rw [if_neg hfull] at hj
      by_cases hni : ((List.range n).filter
          (fun i => decide (ranks.getD i 0 = front_num))) = []
      · rw [if_pos hni] at hj
        exact hsel j hj
      · rw [if_neg hni] at hj
        by_cases hfit : sel.length + ((List.range n).filter
            (fun i => decide (ranks.getD i 0 = front_num))).length ≤ pop_size
        · rw [if_pos hfit] at hj
          refine selLoop_mem_lt n pop_size ranks crowd hn fuel
            (front_num + 1) _ ?_ j hj
          intro j2 hj2
          rcases List.mem_append.mp hj2 with h | h
          · exact hsel j2 h
          · have := (List.mem_filter.mp h).1
            rwa [List.mem_range] at this
        · rw [if_neg hfit] at hj
          rcases List.mem_append.mp hj with h | h
          · exact hsel j h
          · obtain ⟨p, _, hpeq⟩ := List.mem_map.mp h
            by_cases hplt : p < ((List.range n).filter
                (fun i => decide (ranks.getD i 0 = front_num))).length
            · have hm := getD_mem 0 hplt
              rw [hpeq] at hm
              have := (List.mem_filter.mp hm).1
              rwa [List.mem_range] at this
            · rw [getD_of_length_le (le_of_not_lt hplt) 0] at hpeq
              omega

theorem env_sel_wf (lb ub : ℚ) (pop_size dim L : ℕ) (B : Buf)
    (hpos : 1 ≤ pop_size) (hB : inBounds lb ub B.pos)
    (hR : Rect B.scores L) (hss : B.scores.length = pop_size) :
    inBounds lb ub (environmental_selection pop_size dim B.pos B.scores
      B.pos B.scores).1 ∧
    Rect (environmental_selection pop_size dim B.pos B.scores
      B.pos B.scores).2 L ∧
    (environmental_selection pop_size dim B.pos B.scores
      B.pos B.scores).1.length = pop_size ∧
    (environmental_selection pop_size dim B.pos B.scores
      B.pos B.scores).2.length = pop_size := by
  have hrect2 : Rect (B.scores ++ B.scores) L := by
    intro r hr
    rcases List.mem_append.mp hr with h | h <;> exact hR r h
  obtain ⟨hsl, h1eq, h2eq, h1len, h2len⟩ := env_sel_exact pop_size dim L
    B.pos B.scores B.pos B.scores hss hss hpos hrect2
  refine ⟨?_, ?_, h1len, h2len⟩
  · rw [h1eq]
    intro r hr x hx
    obtain ⟨i, _, hieq⟩ := List.mem_map.mp hr
    by_cases hlt : i < (B.pos ++ B.pos).length
    · have hrm : r ∈ B.pos ++ B.pos := by
        rw [← hieq]
        exact getD_mem [] hlt
      rcases List.mem_append.mp hrm with h | h <;> exact hB r h x hx
    · rw [← hieq, getD_of_length_le (le_of_not_lt hlt) []] at hx
      exact absurd hx (List.not_mem_nil x)
  · rw [h2eq]
    intro r hr
    obtain ⟨i, hi, hieq⟩ := List.mem_map.mp hr
    have hin : i < (B.scores ++ B.scores).length := by
      refine selLoop_mem_lt (B.scores ++ B.scores).length pop_size
        (non_dominated_sort (B.scores ++ B.scores)).1
        (non_dominated_sort (B.scores ++ B.scores)).2
        (by rw [List.length_append, hss]; omega)
        (pop_size + 1) 1 [] (fun j hj => absurd hj (List.not_mem_nil j)) i hi
    have hrm : r ∈ B.scores ++ B.scores := by
      rw [← hieq]
      exact getD_mem [] hin
    rcases List.mem_append.mp hrm with h | h <;> exact hR r h

theorem mohoAfter_wf (tape : Tape) (texp : ℕ → ℕ → Bool)
    (f : List ℚ → List ℚ) (pop_size max_gen : ℕ) (lb ub : ℚ) (dim L : ℕ)
    (hub : lb ≤ ub) (hpos : 1 ≤ pop_size) (hf : ∀ x, (f x).length = L)
    (htape : ∀ i k, 0 ≤ tape.u 0 0 i k ∧ tape.u 0 0 i k ≤ 1) :
    ∀ k, inBounds lb ub
        (mohoAfter tape texp f pop_size max_gen lb ub dim k).pos ∧
      Rect (mohoAfter tape texp f pop_size max_gen lb ub dim k).scores L ∧
      (mohoAfter tape texp f pop_size max_gen lb ub dim k).pos.length
        = pop_size ∧
      (mohoAfter tape texp f pop_size max_gen lb ub dim k).scores.length
        = pop_size
  | 0 => initPop_wf tape f pop_size lb ub dim L hub hf htape
  | k+1 => by
    have hP := mohoAfter_wf tape texp f pop_size max_gen lb ub dim L hub
      hpos hf htape k
    have hB := runPhases_preserve tape texp f pop_size max_gen lb ub dim
      (k+1) L pop_size pop_size
      (frontOne pop_size (mohoAfter tape texp f pop_size max_gen lb ub dim
        k).ranks)
      hub hf
      ⟨(mohoAfter tape texp f pop_size max_gen lb ub dim k).pos,
        (mohoAfter tape texp f pop_size max_gen lb ub dim k).scores⟩
      hP
    have hE := env_sel_wf lb ub pop_size dim L _ hpos hB.1 hB.2.1 hB.2.2.2
    exact ⟨hE.1, hE.2.1, hE.2.2.1, hE.2.2.2⟩

/-- C7.  Bounds invariant: with `lb < ub`, every stored position lies in
`[lb, ub]` elementwise after initialization, each movement phase preserves
the invariant on the shared buffer, the environmental selection (as the
generation loop calls it, on a well-formed buffer) preserves it, every
parent population of the run satisfies it, and so do the returned final
front positions.  Every candidate is clipped before it is evaluated or
stored (the clipping-before-evaluation structure itself is the
`try_accept` kernel settled with claim C2). -/
theorem C7_bounds_invariant (tape : Tape) (texp : ℕ → ℕ → Bool)
    (f : List ℚ → List ℚ) (pop_size max_gen : ℕ) (lb ub : ℚ) (dim L : ℕ)
    (hlt : lb < ub) (hpos : 1 ≤ pop_size) (hf : ∀ x, (f x).length = L)
    (htape : ∀ i k, 0 ≤ tape.u 0 0 i k ∧ tape.u 0 0 i k ≤ 1) :
    inBounds lb ub (initPop tape f pop_size lb ub dim).pos ∧
    (∀ t front1 B, inBounds lb ub B.pos →
      inBounds lb ub (exploration_phase tape texp f pop_size max_gen lb ub
        dim t front1 B).pos) ∧
    (∀ t B, inBounds lb ub B.pos →
      inBounds lb ub (defense_phase tape f lb ub dim t pop_size B).pos) ∧
    (∀ t B, inBounds lb ub B.pos →
      inBounds lb ub (escape_phase tape f lb ub dim t pop_size B).pos) ∧
    (∀ B : Buf, inBounds lb ub B.pos → Rect B.scores L →
      B.scores.length = pop_size →
      inBounds lb ub (environmental_selection pop_size dim B.pos B.scores
        B.pos B.scores).1) ∧
    (∀ k, inBounds lb ub
      (mohoAfter tape texp f pop_size max_gen lb ub dim k).pos) ∧
    inBounds lb ub (moho tape texp f pop_size max_gen lb ub dim).1 := by
  have hub : lb ≤ ub := le_of_lt hlt
  refine ⟨(initPop_wf tape f pop_size lb ub dim L hub hf htape).1,
    ?_, ?_, ?_, ?_, ?_, ?_⟩
  · intro t front1 B hB
    exact foldl_preserve (fun b : Buf => inBounds lb ub b.pos)
      (exploration_step tape texp f pop_size max_gen lb ub dim t front1)
      (fun b a hb => try_accept_inBounds f lb ub a _ _ hub
        (try_accept_inBounds f lb ub a b _ hub hb))
      (List.range (pop_size / 2)) B hB
  · intro t B hB
    exact foldl_preserve (fun b : Buf => inBounds lb ub b.pos)
      (defense_step tape f lb ub dim t)
      (fun b a hb => try_accept_inBounds f lb ub a b _ hub hb)
      (List.range' (pop_size / 2) (pop_size - pop_size / 2)) B hB
  · intro t B hB
    exact foldl_preserve (fun b : Buf => inBounds lb ub b.pos)
      (escape_step tape f lb ub dim t)
      (fun b a hb => try_accept_inBounds f lb ub a b _ hub hb)
      (List.range pop_size) B hB
  · intro B hB hR hss
    exact (env_sel_wf lb ub pop_size dim L B hpos hB hR hss).1
  · intro k
    exact (mohoAfter_wf tape texp f pop_size max_gen lb ub dim L hub hpos
      hf htape k).1
  · have hm : (moho tape texp f pop_size max_gen lb ub dim).1
        = ((List.range pop_size).filter (fun i => decide
            ((mohoAfter tape texp f pop_size max_gen lb ub dim
              max_gen).ranks.getD i 0 = 1))).map
          (fun i => (mohoAfter tape texp f pop_size max_gen lb ub dim
            max_gen).pos.getD i []) := rfl
    rw [hm]
    intro r hr x hx
    obtain ⟨i, _, hieq⟩ := List.mem_map.mp hr
    by_cases hltp : i < (mohoAfter tape texp f pop_size max_gen lb ub dim
        max_gen).pos.length
    · have hrm : r ∈ (mohoAfter tape texp f pop_size max_gen lb ub dim
          max_gen).pos := by
        rw [← hieq]
        exact getD_mem [] hltp
      exact (mohoAfter_wf tape texp f pop_size max_gen lb ub dim L hub hpos
        hf htape max_gen).1 r hrm x hx
    · rw [← hieq, getD_of_length_le (le_of_not_lt hltp) []] at hx
      exact absurd hx (List.not_mem_nil x)

theorem C7_bounds_invariant_witness :
    ((0 : ℚ) < 1) ∧ ((1 : ℕ) ≤ 1) ∧
    inBounds 0 1 (moho tapeC7 (fun _ _ => false)
      (fun _ => ([0, 0, 0] : List ℚ)) 1 1 0 1 1).1 := by
  refine ⟨by with_unfolding_all decide, le_refl 1, ?_⟩
  exact (C7_bounds_invariant tapeC7 (fun _ _ => false)
    (fun _ => ([0, 0, 0] : List ℚ)) 1 1 0 1 1 3
    (by with_unfolding_all decide) (le_refl 1) (fun _ => rfl)
    (fun i k => ⟨by change (0 : ℚ) ≤ 1/2; with_unfolding_all decide,
      by change (1 : ℚ)/2 ≤ 1; with_unfolding_all decide⟩)).2.2.2.2.2.2

theorem C5_crowding_distance_witness :
    Rect [[(0 : ℚ)], [1], [2], [10]] 1 ∧
    ([0] : List ℕ) ∈ ndsFronts [[(0 : ℚ)], [1], [2], [10]] ∧
    (non_dominated_sort [[(0 : ℚ)], [1], [2], [10]]).2.getD 0 0 = ⊤ := by
  refine ⟨by with_unfolding_all decide, by with_unfolding_all decide, ?_⟩
  exact (C5_crowding_distance [[(0 : ℚ)], [1], [2], [10]] 1
    (by with_unfolding_all decide)).1 [0] (by with_unfolding_all decide)
    (by decide) 0 (by decide)

end MOHO
